import Mathlib

/-!
# Verification of the pysegy SEGY codec and scan engine

This file gives a shallow embedding of the core of the `pysegy` package
(`src/pysegy/{types,read,write,scan}.py` and `src/python/ibm.py`) and proves
properties of the embedded functions.

Modelling conventions:
* Python `bytes` buffers are modelled as functions `Nat → Nat` (index to byte
  value); reads take the value `% 256`, encoding the `bytes` type invariant
  that entries lie in `[0, 256)`.  Where the code materialises a byte string
  (for example `write_fileheader`) we use `List Nat`.
* Open binary file handles are modelled by `Handle` (buffer, size, position);
  `seek`/`read`/`tell` become explicit state passing.
* Python dicts keyed by strings are modelled as association lists in
  insertion order; the dynamic-attribute header objects become either
  association lists (when equality on them matters) or functions
  `String → Int` (trace headers, which are never compared for equality).
* Only the big-endian path (`bigendian=True`, the default used throughout the
  package and its tests) is modelled; the little-endian branch differs only
  in byte order inside `struct.unpack`/`struct.pack` format strings.
* Fallible operations (`struct.unpack` on a short slice, `KeyError` on an
  unknown field) return `Option`.
-/

namespace Pysegy

/-- Two's-complement reading of a `w`-bit unsigned value, as done by
`struct.unpack` with a signed format code. -/
def toSigned (w : Nat) (v : Nat) : Int :=
  if v < 2 ^ (w - 1) then (v : Int) else (v : Int) - 2 ^ w

/-- Big-endian unsigned integer from `size` bytes at offset `off` of `buf`. -/
def beUnsigned (buf : Nat → Nat) (off size : Nat) : Nat :=
  (List.range size).foldl (fun acc i => acc * 256 + buf (off + i) % 256) 0

/-- `struct.unpack(">h", ...)` / `struct.unpack(">i", ...)`: big-endian signed
integer of `size` bytes at offset `off`. -/
def beSigned (buf : Nat → Nat) (off size : Nat) : Int :=
  toSigned (8 * size) (beUnsigned buf off size)

/-- `FH_BYTE2SAMPLE` from `pysegy/types.py`: byte offset of every binary
file-header field, in dict insertion order. -/
def FH_BYTE2SAMPLE : List (String × Nat) :=
  [("Job", 3200), ("Line", 3204), ("Reel", 3208),
   ("DataTracePerEnsemble", 3212), ("AuxiliaryTracePerEnsemble", 3214),
   ("dt", 3216), ("dtOrig", 3218), ("ns", 3220), ("nsOrig", 3222),
   ("DataSampleFormat", 3224), ("EnsembleFold", 3226), ("TraceSorting", 3228),
   ("VerticalSumCode", 3230), ("SweepFrequencyStart", 3232),
   ("SweepFrequencyEnd", 3234), ("SweepLength", 3236), ("SweepType", 3238),
   ("SweepChannel", 3240), ("SweepTaperlengthStart", 3242),
   ("SweepTaperLengthEnd", 3244), ("TaperType", 3246),
   ("CorrelatedDataTraces", 3248), ("BinaryGain", 3250),
   ("AmplitudeRecoveryMethod", 3252), ("MeasurementSystem", 3254),
   ("ImpulseSignalPolarity", 3256), ("VibratoryPolarityCode", 3258),
   ("SegyFormatRevisionNumber", 3500), ("FixedLengthTraceFlag", 3502),
   ("NumberOfExtTextualHeaders", 3504)]

/-- Field width used by `read_fileheader`/`write_fileheader`:
4 bytes for Job, Line, Reel, 2 bytes otherwise. -/
def fhSize (k : String) : Nat :=
  if k = "Job" ∨ k = "Line" ∨ k = "Reel" then 4 else 2

/-- `FH_FIELDS`: the file-header field names in table order. -/
def FH_FIELDS : List String := FH_BYTE2SAMPLE.map (·.1)

/-- A `BinaryFileHeader`'s `values` dict: association list in the fixed
`FH_FIELDS` order (the dict is initialised with every key present). -/
def defaultBFH : List (String × Int) := FH_FIELDS.map (fun k => (k, 0))

/-- `setattr` on a `BinaryFileHeader`: replaces the value stored under a
field name that is already present in the dict. -/
def bfhSet (b : List (String × Int)) (k : String) (v : Int) :
    List (String × Int) :=
  b.map (fun e => if e.1 = k then (e.1, v) else e)

/-- `getattr` on a `BinaryFileHeader` (all table keys are present, so the
default 0 is only a totalisation artefact). -/
def bfhGet (b : List (String × Int)) (k : String) : Int :=
  (b.lookup k).getD 0

/-- A `FileHeader`: 3200-byte textual header plus the binary header dict. -/
structure FileHeaderM where
  th : List Nat
  bfh : List (String × Int)
  deriving DecidableEq, Repr

/-- `struct.pack` of a big-endian signed integer on `size` bytes
(two's complement). -/
def packBE (size : Nat) (v : Int) : List Nat :=
  let n := (v.emod (2 ^ (8 * size))).toNat
  (List.range size).map (fun i => n / 256 ^ (size - 1 - i) % 256)

/-- `write_fileheader` (`pysegy/write.py`): writes the (padded, truncated)
3200-byte text, then packs every field of `FH_BYTE2SAMPLE` sequentially in
dict order, then pads with zero bytes up to 3600. -/
def write_fileheader (fh : FileHeaderM) : List Nat :=
  let th0 := if fh.th.length < 3200
    then fh.th ++ List.replicate (3200 - fh.th.length) 32 else fh.th
  let text := th0.take 3200
  let packed := (FH_FIELDS.map (fun k => packBE (fhSize k) (bfhGet fh.bfh k))).flatten
  text ++ packed ++ List.replicate (3600 - (3200 + packed.length)) 0

/-- An open binary file handle. -/
structure Handle where
  buf : Nat → Nat
  size : Nat
  pos : Nat

/-- Open an in-memory byte string (as `BytesIO` over a written buffer). -/
def listHandle (l : List Nat) : Handle :=
  ⟨fun i => l.getD i 0, l.length, 0⟩

/-- `read_fileheader` (`pysegy/read.py`): records the position, seeks to 0,
reads 3600 bytes, decodes each requested field at its `FH_BYTE2SAMPLE`
offset, restores the recorded position and returns.  `none` models the
`struct.error` raised when the read comes back too short for some requested
field (in that case the position is not restored, hence no handle is
returned), or the `KeyError` on a name outside the table. -/
def read_fileheader (h : Handle) (keys : Option (List String)) :
    Option (FileHeaderM × Handle) :=
  let ks := keys.getD FH_FIELDS
  let start := h.pos
  let afterSeek : Handle := { h with pos := 0 }
  let len := min 3600 (afterSeek.size - afterSeek.pos)
  let content : Nat → Nat := fun i =>
    if i < len then afterSeek.buf (afterSeek.pos + i) else 0
  let afterRead : Handle := { afterSeek with pos := afterSeek.pos + len }
  if ks.all (fun k =>
      match FH_BYTE2SAMPLE.lookup k with
      | some off => decide (off + fhSize k ≤ len)
      | none => false) then
    some (⟨(List.range (min 3200 len)).map content,
           FH_FIELDS.map fun k =>
             (k, if k ∈ ks then
                   beSigned content ((FH_BYTE2SAMPLE.lookup k).getD 0) (fhSize k)
                 else 0)⟩,
          { afterRead with pos := start })
  else none

/-- The `ns` field of a file as decoded by `read_fileheader` (0 when the
header cannot be read). -/
def fileNs (h : Handle) : Int :=
  match read_fileheader h none with
  | some (fh, _) => bfhGet fh.bfh "ns"
  | none => 0

/-- `TH_BYTE2SAMPLE` from `pysegy/types.py`: byte offset of every trace
header field inside the 240-byte trace header. -/
def TH_BYTE2SAMPLE : List (String × Nat) :=
  [("TraceNumWithinLine", 0), ("TraceNumWithinFile", 4), ("FieldRecord", 8),
   ("TraceNumber", 12), ("EnergySourcePoint", 16), ("CDP", 20),
   ("CDPTrace", 24), ("TraceIDCode", 28), ("NSummedTraces", 30),
   ("NStackedTraces", 32), ("DataUse", 34), ("Offset", 36),
   ("RecGroupElevation", 40), ("SourceSurfaceElevation", 44),
   ("SourceDepth", 48), ("RecDatumElevation", 52),
   ("SourceDatumElevation", 56), ("SourceWaterDepth", 60),
   ("GroupWaterDepth", 64), ("ElevationScalar", 68), ("RecSourceScalar", 70),
   ("SourceX", 72), ("SourceY", 76), ("GroupX", 80), ("GroupY", 84),
   ("CoordUnits", 88), ("WeatheringVelocity", 90),
   ("SubWeatheringVelocity", 92), ("UpholeTimeSource", 94),
   ("UpholeTimeGroup", 96), ("StaticCorrectionSource", 98),
   ("StaticCorrectionGroup", 100), ("TotalStaticApplied", 102),
   ("LagTimeA", 104), ("LagTimeB", 106), ("DelayRecordingTime", 108),
   ("MuteTimeStart", 110), ("MuteTimeEnd", 112), ("ns", 114), ("dt", 116),
   ("GainType", 118), ("InstrumentGainConstant", 120),
   ("InstrumntInitialGain", 122), ("Correlated", 124),
   ("SweepFrequencyStart", 126), ("SweepFrequencyEnd", 128),
   ("SweepLength", 130), ("SweepType", 132),
   ("SweepTraceTaperLengthStart", 134), ("SweepTraceTaperLengthEnd", 136),
   ("TaperType", 138), ("AliasFilterFrequency", 140),
   ("AliasFilterSlope", 142), ("NotchFilterFrequency", 144),
   ("NotchFilterSlope", 146), ("LowCutFrequency", 148),
   ("HighCutFrequency", 150), ("LowCutSlope", 152), ("HighCutSlope", 154),
   ("Year", 156), ("DayOfYear", 158), ("HourOfDay", 160),
   ("MinuteOfHour", 162), ("SecondOfMinute", 164), ("TimeCode", 166),
   ("TraceWeightingFactor", 168), ("GeophoneGroupNumberRoll", 170),
   ("GeophoneGroupNumberTraceStart", 172),
   ("GeophoneGroupNumberTraceEnd", 174), ("GapSize", 176),
   ("OverTravel", 178), ("CDPX", 180), ("CDPY", 184), ("Inline3D", 188),
   ("Crossline3D", 192), ("ShotPoint", 196), ("ShotPointScalar", 200),
   ("TraceValueMeasurmentUnit", 202), ("TransductionConstnatMantissa", 204),
   ("TransductionConstantPower", 208), ("TransductionUnit", 210),
   ("TraceIdentifier", 212), ("ScalarTraceHeader", 214), ("SourceType", 216),
   ("SourceEnergyDirectionMantissa", 218),
   ("SourceEnergyDirectionExponent", 222), ("SourceMeasurmentMantissa", 224),
   ("SourceMeasurementExponent", 228), ("SourceMeasurmentUnit", 230),
   ("Unassigned1", 232), ("Unassigned2", 236)]

/-- `TH_INT32_FIELDS`: trace-header fields stored as 32-bit integers. -/
def TH_INT32_FIELDS : List String :=
  ["TraceNumWithinLine", "TraceNumWithinFile", "FieldRecord", "TraceNumber",
   "EnergySourcePoint", "CDP", "CDPTrace", "Offset", "RecGroupElevation",
   "SourceSurfaceElevation", "SourceDepth", "RecDatumElevation",
   "SourceDatumElevation", "SourceWaterDepth", "GroupWaterDepth", "SourceX",
   "SourceY", "GroupX", "GroupY", "CDPX", "CDPY", "Inline3D", "Crossline3D",
   "ShotPoint", "TransductionConstnatMantissa",
   "SourceEnergyDirectionMantissa", "SourceMeasurmentMantissa",
   "Unassigned1", "Unassigned2"]

/-- Width of a trace-header field: 4 bytes for `TH_INT32_FIELDS`, else 2. -/
def thSize (k : String) : Nat := if k ∈ TH_INT32_FIELDS then 4 else 2

/-- `TH_FIELDS`: the trace-header field names in table order. -/
def TH_FIELDS : List String := TH_BYTE2SAMPLE.map (·.1)

/-- A `BinaryTraceHeader`'s `values` dict, as the function it denotes under
`getattr`: fields start at 0 and requested fields are overwritten.  Trace
headers are produced and consumed but never compared for equality, so the
functional view is adequate. -/
def THdr := String → Int

/-- `_parse_header` (`pysegy/scan.py`) / the header part of `parse_one`
(`pysegy/read.py`): decode each requested field of the trace header starting
at byte `base` of `buf`.  A requested name outside `TH_BYTE2SAMPLE` raises
`KeyError` in Python; it is modelled as the untouched default 0 and is not
exercised by any theorem. -/
def parseTraceHeader (buf : Nat → Nat) (base : Nat) (ks : List String) :
    THdr :=
  fun k =>
    if k ∈ ks then
      match TH_BYTE2SAMPLE.lookup k with
      | some off => beSigned buf (base + off) (thSize k)
      | none => 0
    else 0

/-- The chunked `while remaining > 0` loop of `_iter_trace_headers`, with a
structural fuel argument so that the definition computes by kernel
reduction: each round consumes `min chunk remaining ≥ 1` traces (for
`chunk ≥ 1`), so `fuel = remaining` rounds always suffice, as
`iterTHAux_closed` below proves. -/
def iterTHAux (buf : Nat → Nat) (ks : List String) (ts chunk : Nat) :
    Nat → Nat → Nat → List (Nat × THdr)
  | 0, _, _ => []
  | _ + 1, _, 0 => []
  | fuel + 1, pos, remaining =>
    if chunk = 0 then []
    else
      let n := min chunk remaining
      ((List.range n).map fun i =>
        (pos + i * ts, parseTraceHeader buf (pos + i * ts) ks))
        ++ iterTHAux buf ks ts chunk fuel (pos + n * ts) (remaining - n)

/-- `_iter_trace_headers` (`pysegy/scan.py`): yield
`(byte offset, parsed header)` for `remaining` traces of size `ts` starting
at byte `pos`, reading `chunk` traces per block.  The thread pool uses
`Executor.map`, which yields results in input order, so the stream is in
file order.  Python loops forever when `chunk = 0` and traces remain; that
unreachable configuration is modelled as an empty stream and excluded by a
`0 < chunk` hypothesis in the theorems below. -/
def iterTraceHeaders (buf : Nat → Nat) (ks : List String) (ts : Nat)
    (pos remaining chunk : Nat) : List (Nat × THdr) :=
  iterTHAux buf ks ts chunk remaining pos remaining

/-- The chunked loop of `_iter_trace_headers_async`, with the same
structural fuel as `iterTHAux`. -/
def iterTHAsyncAux (buf : Nat → Nat) (ks : List String) (ts chunk : Nat) :
    Nat → Nat → Nat → List (List Nat) → List (Nat × THdr)
  | 0, _, _, _ => []
  | _ + 1, _, 0, _ => []
  | fuel + 1, pos, remaining, orders =>
    if chunk = 0 then []
    else
      let n := min chunk remaining
      let o := orders.headD (List.range n)
      (o.map fun i =>
        (pos + i * ts, parseTraceHeader buf (pos + i * ts) ks))
        ++ iterTHAsyncAux buf ks ts chunk fuel (pos + n * ts) (remaining - n)
            orders.tail

/-- `_iter_trace_headers_async` (`pysegy/scan.py`): within each chunk the
per-header decode tasks are consumed via `asyncio.as_completed`, i.e. in
completion order.  `orders` gives, chunk by chunk, the order in which the
chunk's `n` tasks complete (a permutation of `range n`; the in-order default
is used when `orders` is exhausted). -/
def iterTraceHeadersAsync (buf : Nat → Nat) (ks : List String) (ts : Nat)
    (pos remaining chunk : Nat) (orders : List (List Nat)) :
    List (Nat × THdr) :=
  iterTHAsyncAux buf ks ts chunk remaining pos remaining orders

/-- A `ShotRecord` (`pysegy/scan.py`): `summary` is the dict
field name ↦ (min, max), as an association list in insertion order. -/
structure ShotRecord where
  path : String
  shot : Int × Int × Int
  segments : List (Nat × Nat)
  summary : List (String × (Int × Int))
  ns : Int
  dt : Int
  deriving DecidableEq, Repr

/-- Combine a running `(min, max)` entry with a new value, as one iteration
of `_update_summary` does for one field. -/
def mergeMM : Option (Int × Int) → Int → Int × Int
  | none, v => (v, v)
  | some (mn, mx), v => (min mn v, max mx v)

/-- One field update of `_update_summary`: merge value `v` into the entry
for `k`, appending a fresh `(v, v)` entry when `k` is absent. -/
def updateSummaryOne (s : List (String × (Int × Int))) (k : String)
    (v : Int) : List (String × (Int × Int)) :=
  if s.any (fun e => e.1 == k) then
    s.map (fun e => if e.1 == k then (e.1, (min e.2.1 v, max e.2.2 v)) else e)
  else s ++ [(k, (v, v))]

/-- `_update_summary` (`pysegy/scan.py`): fold the requested fields of a
trace header into the summary dict. -/
def updateSummary (s : List (String × (Int × Int))) (th : THdr)
    (ks : List String) : List (String × (Int × Int)) :=
  ks.foldl (fun acc k => updateSummaryOne acc k (th k)) s

/-- The mutable locals of the segmentation loop in `_scan_file`:
the `records` dict (association list in insertion order, keyed by the shot
tuple), `previous`, `seg_start` and `seg_count`. -/
structure ScanState where
  records : List ShotRecord
  previous : Option (Int × Int × Int)
  segStart : Nat
  segCount : Nat

/-- `src = (th.SourceX, th.SourceY, getattr(th, depth_key))`. -/
def keyOf (dk : String) (th : THdr) : Int × Int × Int :=
  (th "SourceX", th "SourceY", th dk)

/-- `records[p].segments.append(seg)`: append a segment to the record whose
shot key is `p` (keys are unique in the dict, so at most one entry matches). -/
def appendSeg (recs : List ShotRecord) (p : Int × Int × Int)
    (seg : Nat × Nat) : List ShotRecord :=
  recs.map (fun r => if r.shot = p then
    { r with segments := r.segments ++ [seg] } else r)

/-- `_update_summary(rec.summary, th, keys or [])` applied to the dict entry
for `src`. -/
def updateSummaryAt (recs : List ShotRecord) (src : Int × Int × Int)
    (th : THdr) (ks : List String) : List ShotRecord :=
  recs.map (fun r => if r.shot = src then
    { r with summary := updateSummary r.summary th ks } else r)

/-- `records.get(src)` / create-on-miss: the dict entry for `src` is fetched,
or a fresh `ShotRecord(path, src, [], ..., ns, dt)` is appended when absent. -/
def insertRecord (path : String) (ns dt : Int) (recs : List ShotRecord)
    (src : Int × Int × Int) : List ShotRecord :=
  if recs.any (fun r => r.shot = src) then recs
  else recs ++ [⟨path, src, [], [], ns, dt⟩]

/-- One iteration of the segmentation loop of `_scan_file`: fetch or create
the record for the incoming key, update its summary, then either open a
segment, extend the running one, or close it onto the previous key's
record. -/
def scanStep (path : String) (ns dt : Int) (dk : String)
    (extras : List String) (st : ScanState) (item : Nat × THdr) : ScanState :=
  let src := keyOf dk item.2
  let recs1 := updateSummaryAt (insertRecord path ns dt st.records src) src
    item.2 extras
  match st.previous with
  | none => ⟨recs1, some src, item.1, 1⟩
  | some p =>
    if src = p then ⟨recs1, some p, st.segStart, st.segCount + 1⟩
    else ⟨appendSeg recs1 p (st.segStart, st.segCount), some src, item.1, 1⟩

/-- Initial state of the segmentation loop. -/
def initScanState : ScanState := ⟨[], none, 0, 0⟩

/-- The epilogue of `_scan_file`: append the final open segment. -/
def closeScan (st : ScanState) : List ShotRecord :=
  match st.previous with
  | none => st.records
  | some p => appendSeg st.records p (st.segStart, st.segCount)

/-- Python's ascending comparison on shot key tuples (lexicographic). -/
def shotLe (a b : Int × Int × Int) : Bool :=
  decide (a.1 < b.1 ∨ (a.1 = b.1 ∧ (a.2.1 < b.2.1 ∨
    (a.2.1 = b.2.1 ∧ a.2.2 ≤ b.2.2))))

/-- `trace_keys` built by `_scan_file`: the forced source-position keys plus
any requested extras not already present. -/
def traceKeys (dk : String) (extras : List String) : List String :=
  extras.foldl (fun acc k => if k ∈ acc then acc else acc ++ [k])
    ["SourceX", "SourceY", dk]

/-- The segmentation loop, epilogue and final
`sorted(records.values(), key=lambda r: r.shot)` of `_scan_file`, as a
function of the decoded header stream. -/
def scanFromStream (path : String) (fh : FileHeaderM)
    (stream : List (Nat × THdr)) (dk : String) (extras : List String) :
    List ShotRecord :=
  let st := stream.foldl
    (scanStep path (bfhGet fh.bfh "ns") (bfhGet fh.bfh "dt") dk extras)
    initScanState
  (closeScan st).mergeSort (fun a b => shotLe a.shot b.shot)

/-- `total = (f.tell() - 3600) // (240 + ns * 4)` with `f` at EOF
(Python floor division; negative results give an empty `range`). -/
def scanTotal (fh : FileHeaderM) (fsize : Nat) : Nat :=
  (((fsize : Int) - 3600).fdiv (240 + bfhGet fh.bfh "ns" * 4)).toNat

/-- The decoded header stream consumed by `_scan_file`'s loop: in file
order, produced by `_iter_trace_headers` from byte 3600.  Negative decoded
`ns` (whose byte arithmetic Python would still perform) is outside the
modelled domain and yields the empty stream. -/
def scanStreamOf (h : Handle) (dk : String) (extras : List String)
    (chunk : Nat) : List (Nat × THdr) :=
  match read_fileheader h none with
  | none => []
  | some (fh, f1) =>
    let ns := bfhGet fh.bfh "ns"
    if 0 ≤ ns then
      iterTraceHeaders f1.buf (traceKeys dk extras) (240 + ns.toNat * 4)
        3600 (scanTotal fh f1.size) chunk
    else []

/-- `_scan_file` (`pysegy/scan.py`): read the file header, derive the trace
count, stream the headers in file order and run the segmentation loop. -/
def scanFile (path : String) (h : Handle) (extras : List String)
    (chunk : Nat) (dk : String) : Option (FileHeaderM × List ShotRecord) :=
  match read_fileheader h none with
  | none => none
  | some (fh, _) =>
    if 0 ≤ bfhGet fh.bfh "ns" then
      some (fh, scanFromStream path fh (scanStreamOf h dk extras chunk) dk
        extras)
    else none

/-- `_scan_file_async` (`pysegy/scan.py`): identical to `_scan_file` except
that the header stream is consumed in per-chunk completion order
(`asyncio.as_completed`), given by `orders`. -/
def scanFileAsync (path : String) (h : Handle) (extras : List String)
    (chunk : Nat) (dk : String) (orders : List (List Nat)) :
    Option (FileHeaderM × List ShotRecord) :=
  match read_fileheader h none with
  | none => none
  | some (fh, f1) =>
    let ns := bfhGet fh.bfh "ns"
    if 0 ≤ ns then
      some (fh, scanFromStream path fh
        (iterTraceHeadersAsync f1.buf (traceKeys dk extras)
          (240 + ns.toNat * 4) 3600 (scanTotal fh f1.size) chunk orders)
        dk extras)
    else none

/-- The record list of a successful single-file scan (empty on failure). -/
def scanRecordsOf (path : String) (h : Handle) (extras : List String)
    (chunk : Nat) (dk : String) : List ShotRecord :=
  ((scanFile path h extras chunk dk).map Prod.snd).getD []

/-- The shot-key projection of every segment list of a scan, flattened. -/
def segsOf (recs : List ShotRecord) : List (Nat × Nat) :=
  (recs.map (·.segments)).flatten

/-- The shot keys of a record list, in dict insertion order. -/
def shots (recs : List ShotRecord) : List (Int × Int × Int) :=
  recs.map (·.shot)

/-- The merge step of `segy_scan` (`pysegy/scan.py`, lines 564-578): given
the per-file scan results in completion order, fail on an empty set
(`FileNotFoundError`), validate that every file header equals the first
(`ValueError` otherwise), concatenate the record lists and sort by shot
key (Python's stable `list.sort(key=lambda r: r.shot)`). -/
def segy_scan_merge (scans : List (FileHeaderM × List ShotRecord)) :
    Option (FileHeaderM × List ShotRecord) :=
  match scans with
  | [] => none
  | s0 :: _ =>
    if scans.all (fun s => s.1 = s0.1) then
      some (s0.1,
        ((scans.map (·.2)).flatten).mergeSort (fun a b => shotLe a.shot b.shot))
    else none

/-- `ibm_to_ieee` (`src/python/ibm.py`), on the integer form of the 4-byte
value (the code accepts `bytes` or `int` and masks with `0xffffffff`).  The
Python float arithmetic (`fraction / float(0x01000000)` and
`16 ** (exponent - 64)`) is exact in double precision over the whole IBM
range, so the rational value is the one computed. -/
def ibm_to_ieee (value : Nat) : ℚ :=
  let val := value % 2 ^ 32
  if val = 0 then 0
  else
    let sign : ℚ := if val / 2 ^ 31 = 0 then 1 else -1
    let expo : Nat := val / 2 ^ 24 % 2 ^ 7
    let fraction : Nat := val % 2 ^ 24
    sign * ((fraction : ℚ) / 2 ^ 24) * (16 : ℚ) ^ ((expo : ℤ) - 64)

/-- The `while f < 1.0: f *= 16.0; exponent -= 1` loop of `ieee_to_ibm`.
The loop is only ever entered with `f > 0` (the caller filters out 0 and
negates negatives); the guard `0 < f` totalises the model there, where the
Python loop would not terminate. -/
def normUp (f : ℚ) (e : ℤ) : ℚ × ℤ :=
  if h : 0 < f ∧ f < 1 then normUp (f * 16) (e - 1) else (f, e)
  termination_by (-(Int.log 16 f)).toNat
  decreasing_by
    have hb : (1:ℕ) < 16 := by norm_num
    have hf : (0:ℚ) < f := h.1
    have h16 : (0:ℚ) < f * 16 := by positivity
    have hcast : ((16:ℕ):ℚ) = (16:ℚ) := by norm_num
    have hlog : Int.log 16 (f * 16) = Int.log 16 f + 1 := by
      have h1 : ((16:ℕ):ℚ) ^ (Int.log 16 f + 1) ≤ f * 16 := by
        rw [zpow_add_one₀ (by norm_num : ((16:ℕ):ℚ) ≠ 0)]
        have hz := Int.zpow_log_le_self (R := ℚ) hb hf
        rw [hcast] at hz ⊢
        nlinarith
      have h2 : f * 16 < ((16:ℕ):ℚ) ^ (Int.log 16 f + 1 + 1) := by
        rw [zpow_add_one₀ (by norm_num : ((16:ℕ):ℚ) ≠ 0)]
        have hz := Int.lt_zpow_succ_log_self (R := ℚ) hb f
        rw [hcast] at hz ⊢
        nlinarith
      have hle := (Int.zpow_le_iff_le_log hb h16).mp h1
      have hlt := (Int.lt_zpow_iff_log_lt hb h16).mp h2
      omega
    have hneg : Int.log 16 f ≤ -1 := by
      by_contra hc
      push_neg at hc
      have h0 : (0:ℤ) ≤ Int.log 16 f := by omega
      have hz := Int.zpow_log_le_self (R := ℚ) hb hf
      have hone : ((16:ℕ):ℚ) ^ (0:ℤ) ≤ ((16:ℕ):ℚ) ^ Int.log 16 f :=
        zpow_le_zpow_right₀ (by norm_num) h0
      simp only [zpow_zero] at hone
      have : (1:ℚ) ≤ f := le_trans hone hz
      linarith [h.2]
    simp only [hlog]
    omega

/-- The `while f >= 16.0: f /= 16.0; exponent += 1` loop of `ieee_to_ibm`. -/
def normDown (f : ℚ) (e : ℤ) : ℚ × ℤ :=
  if h : 16 ≤ f then normDown (f / 16) (e + 1) else (f, e)
  termination_by (Int.log 16 f).toNat
  decreasing_by
    have hb : (1:ℕ) < 16 := by norm_num
    have hf : (0:ℚ) < f := by linarith
    have hg : (0:ℚ) < f / 16 := by positivity
    have hcast : ((16:ℕ):ℚ) = (16:ℚ) := by norm_num
    have hlog : Int.log 16 (f / 16 * 16) = Int.log 16 (f / 16) + 1 := by
      have h1 : ((16:ℕ):ℚ) ^ (Int.log 16 (f / 16) + 1) ≤ f / 16 * 16 := by
        rw [zpow_add_one₀ (by norm_num : ((16:ℕ):ℚ) ≠ 0)]
        have hz := Int.zpow_log_le_self (R := ℚ) hb hg
        rw [hcast] at hz ⊢
        nlinarith
      have h2 : f / 16 * 16 < ((16:ℕ):ℚ) ^ (Int.log 16 (f / 16) + 1 + 1) := by
        rw [zpow_add_one₀ (by norm_num : ((16:ℕ):ℚ) ≠ 0)]
        have hz := Int.lt_zpow_succ_log_self (R := ℚ) hb (f / 16)
        rw [hcast] at hz ⊢
        nlinarith
      have hle := (Int.zpow_le_iff_le_log hb (by positivity : (0:ℚ) < f / 16 * 16)).mp h1
      have hlt := (Int.lt_zpow_iff_log_lt hb (by positivity : (0:ℚ) < f / 16 * 16)).mp h2
      omega
    rw [div_mul_cancel₀ f (by norm_num : (16:ℚ) ≠ 0)] at hlog
    have hpos : 1 ≤ Int.log 16 f := by
      have h1 : Int.log 16 ((16:ℚ)) ≤ Int.log 16 f := by
        exact Int.log_mono_right (by norm_num) h
      have h2 : Int.log 16 ((16:ℚ)) = 1 := by
        have := Int.log_zpow (R := ℚ) hb 1
        rw [hcast] at this
        simpa using this
      omega
    omega

/-- `ieee_to_ibm` (`src/python/ibm.py`), returning the integer value of the
4 bytes the code emits with `to_bytes(4, "big")`.  `int(f * 0x01000000)`
truncates toward zero; `f` is nonnegative at that point, so it is the floor.
A final exponent outside `[0, 127]` would make Python's `to_bytes` raise;
`Int.toNat` totalises the model there (not exercised by any theorem). -/
def ieee_to_ibm (f : ℚ) : Nat :=
  if f = 0 then 0
  else
    let sign : Nat := if f < 0 then 128 else 0
    let g := if f < 0 then -f else f
    let p := normDown (normUp g 64).1 (normUp g 64).2
    let fraction := (⌊p.1 * 16777216⌋).toNat % 16777216
    (sign <<< 24) ||| (p.2.toNat <<< 24) ||| fraction

/-- `struct.unpack(">f", ...)`: exact rational value of an IEEE-754 binary32
bit pattern.  NaN and infinity (exponent 255) have no rational value and are
mapped to 0; no theorem below evaluates them. -/
def ieee32ToRat (v : Nat) : ℚ :=
  let w := v % 2 ^ 32
  let sign : ℚ := if w / 2 ^ 31 = 0 then 1 else -1
  let expo : Nat := w / 2 ^ 23 % 2 ^ 8
  let frac : Nat := w % 2 ^ 23
  if expo = 0 then sign * (frac : ℚ) * (2 : ℚ) ^ (-(149 : ℤ))
  else if expo = 255 then 0
  else sign * (1 + (frac : ℚ) / 2 ^ 23) * (2 : ℚ) ^ ((expo : ℤ) - 127)

/-- One 4-byte sample decoded per the data sample format code:
`ibm_to_ieee` when `datatype == 1`, IEEE-754 single otherwise. -/
def decodeSample (datatype : Int) (w : Nat) : ℚ :=
  if datatype = 1 then ibm_to_ieee w else ieee32ToRat w

/-- A `SeisBlock`: file header, trace headers, and the `ns × ntraces`
sample matrix (`data[j][i]` is sample `j` of trace `i`). -/
structure SeisBlockM where
  fileheader : FileHeaderM
  traceheaders : List THdr
  data : List (List ℚ)

/-- `read_traces` / `read_traces_async` (`pysegy/read.py`): read
`ntraces` records of `240 + ns*4` bytes from the current position, decode
the requested header fields and the sample columns.  Although the async
variant completes its per-trace tasks in arbitrary order, results are
stored by index, so the outcome is deterministic and is modelled directly.
`none` models the `struct` error raised when the read returns fewer than
`trace_size * ntraces` bytes. -/
def read_traces (h : Handle) (ns ntraces : Nat) (datatype : Int)
    (keys : Option (List String)) :
    Option ((List THdr × List (List ℚ)) × Handle) :=
  let ts := 240 + ns * 4
  if h.pos + ts * ntraces ≤ h.size then
    let raw : Nat → Nat := fun i => h.buf (h.pos + i)
    let ks := keys.getD TH_FIELDS
    let headers := (List.range ntraces).map fun i =>
      parseTraceHeader raw (i * ts) ks
    let data := (List.range ns).map fun j =>
      (List.range ntraces).map fun i =>
        decodeSample datatype (beUnsigned raw (i * ts + 240 + 4 * j) 4)
    some ((headers, data), { h with pos := h.pos + ts * ntraces })
  else none

/-- `read_file` (`pysegy/read.py`): read the file header, derive
`trace_size = 240 + ns*4` and `ntraces = (filesize - 3600) // trace_size`
(floor division), seek to 3600 and decode that many traces.  A negative
decoded `ns` (whose byte arithmetic Python would still attempt) is outside
the modelled domain. -/
def read_file (h : Handle) (keys : Option (List String)) :
    Option SeisBlockM :=
  match read_fileheader h none with
  | none => none
  | some (fh, f1) =>
    let ns := bfhGet fh.bfh "ns"
    let dsf := bfhGet fh.bfh "DataSampleFormat"
    if 0 ≤ ns then
      let ntraces := (((f1.size : Int) - 3600).fdiv (240 + ns * 4)).toNat
      match read_traces { f1 with pos := 3600 } ns.toNat ntraces dsf keys with
      | none => none
      | some ((hdrs, data), _) => some ⟨fh, hdrs, data⟩
    else none

/-- `np.concatenate(parts, axis=0)` on a nonempty list of 2-d arrays: stacks
along the first (sample) axis; every part must have the same trailing
(trace) dimension, else `ValueError` (`none`).  Row widths inside one part
are uniform by construction, so comparing to the first row of the first
part captures NumPy's shape check. -/
def concatAxis0 (parts : List (List (List ℚ))) : Option (List (List ℚ)) :=
  let w := ((parts.headD []).headD []).length
  if parts.all (fun p => p.all (fun row => row.length = w)) then
    some parts.flatten
  else none

/-- `SegyScan.read_shot` (`pysegy/scan.py`): for each `(offset, count)`
segment of the record, open the record's path (`fs` maps a path to a fresh
handle), seek to `offset`, decode `count` traces, extend the header list and
collect the data part; finally `np.concatenate(parts, axis=0)` (or `[]` when
there is no part). -/
def read_shot (fh : FileHeaderM) (rec : ShotRecord) (fs : String → Handle)
    (keys : Option (List String)) : Option SeisBlockM :=
  let ns := bfhGet fh.bfh "ns"
  let dsf := bfhGet fh.bfh "DataSampleFormat"
  if 0 ≤ ns then
    let step := fun (acc : Option (List THdr × List (List (List ℚ))))
        (seg : Nat × Nat) =>
      match acc with
      | none => none
      | some (hs, ps) =>
        match read_traces { fs rec.path with pos := seg.1 } ns.toNat seg.2
            dsf keys with
        | none => none
        | some ((h2, d), _) => some (hs ++ h2, ps ++ [d])
    match rec.segments.foldl step (some ([], [])) with
    | none => none
    | some (hs, ps) =>
      if ps.isEmpty then some ⟨fh, hs, []⟩
      else (concatAxis0 ps).map fun data => ⟨fh, hs, data⟩
  else none

/-! ## Concrete inputs

`cBuf` is the synthetic file of the spec's segmentation test: `ns = 1`
(file-header bytes 3220-3221), three 244-byte traces at 3600, 3844 and 4088
carrying source keys `(1,1,0)`, `(2,2,0)`, `(1,1,0)` (SourceX at trace
offset 72, SourceY at 76, four-byte big-endian), every other byte zero. -/

/-- Byte content of the synthetic 3-trace file. -/
def cBuf : Nat → Nat := fun i =>
  if i = 3221 then 1
  else if i = 3675 then 1
  else if i = 3679 then 1
  else if i = 3919 then 2
  else if i = 3923 then 2
  else if i = 4163 then 1
  else if i = 4167 then 1
  else 0

/-- Handle on the synthetic 3-trace file (size 3600 + 3·244). -/
def cHandle : Handle := ⟨cBuf, 4332, 0⟩

/-- The same bytes with 100 trailing junk bytes: the file size 4432 leaves
`4432 - 3600 = 832 = 3·244 + 100`, not an exact multiple of the trace
size. -/
def c4Handle : Handle := ⟨cBuf, 4432, 0⟩

/-- The file header of the synthetic file, as decoded by `read_fileheader`. -/
def fhC6 : FileHeaderM :=
  ((read_fileheader cHandle none).map Prod.fst).getD ⟨[], []⟩

/-- The `(1,1,0)` ShotRecord produced by scanning the synthetic file: two
segments of one trace each, at bytes 3600 and 4088. -/
def recC5 : ShotRecord := ⟨"f", (1, 1, 0), [(3600, 1), (4088, 1)], [], 1, 0⟩

/-- File system mapping every path to the synthetic file. -/
def fsC : String → Handle := fun _ => cHandle

/-- A file header whose only nonzero field is `SegyFormatRevisionNumber`,
built purely from field assignments on a default header. -/
def fhC1 : FileHeaderM :=
  ⟨List.replicate 3200 32, bfhSet defaultBFH "SegyFormatRevisionNumber" 1⟩

/-- The 3600 bytes written for `fhC1`. -/
def bytesC1 : List Nat := write_fileheader fhC1

/-- The 66 bytes `write_fileheader` packs for `fhC1` after the text: 60 zero
bytes for the first 27 fields, then `SegyFormatRevisionNumber = 1` big-endian
and two zero fields. -/
def packedC1 : List Nat := List.replicate 60 0 ++ [0, 1, 0, 0, 0, 0]

/-! ## Specification-side notions used by the theorems -/

/-- The 3600-byte view `read_fileheader` obtains of a (sufficiently long)
file: the preamble bytes, zero beyond the read. -/
def fhContent (h : Handle) : Nat → Nat :=
  fun i => if i < 3600 then h.buf i else 0

/-- The header value `read_fileheader` returns for a file of at least 3600
bytes with the default key set. -/
def mkFH (h : Handle) : FileHeaderM :=
  ⟨(List.range 3200).map (fhContent h),
   FH_FIELDS.map fun k =>
     (k, if k ∈ FH_FIELDS then
           beSigned (fhContent h) ((FH_BYTE2SAMPLE.lookup k).getD 0)
             (fhSize k)
         else 0)⟩

/-- The in-file-order decoded header stream of a file of `n` traces, as
`(byte offset, header)` pairs: trace `i` sits at byte `3600 + i * ts`. -/
def streamN (f : Nat → THdr) (ts n : Nat) : List (Nat × THdr) :=
  (List.range n).map fun i => (3600 + i * ts, f i)

/-- The segmentation fold over the first `n` traces. -/
def scanFold (path : String) (ns dt : Int) (dk : String)
    (extras : List String) (f : Nat → THdr) (ts n : Nat) : ScanState :=
  (streamN f ts n).foldl (scanStep path ns dt dk extras) initScanState

/-- `consecFT ts a b l`: the segments of `l`, in order, tile the trace-index
interval `[a, b)` consecutively — each starts at byte `3600 + index * ts`,
is nonempty, and the next segment starts where the previous one ended. -/
def consecFT (ts : Nat) : Nat → Nat → List (Nat × Nat) → Prop
  | a, b, [] => a = b
  | a, b, s :: rest => s.1 = 3600 + a * ts ∧ 0 < s.2 ∧
      consecFT ts (a + s.2) b rest

/-- The field-`k` values of the traces of `stream` whose shot key is `key`. -/
def streamVals (dk : String) (stream : List (Nat × THdr))
    (key : Int × Int × Int) (k : String) : List Int :=
  (stream.filter fun it => decide (keyOf dk it.2 = key)).map fun it => it.2 k

/-- Reference min/max of a list of values (`none` when empty). -/
def specMM : List Int → Option (Int × Int)
  | [] => none
  | v :: vs => some (vs.foldl min v, vs.foldl max v)

/-! ## Theorems -/

/-- Looking up a key of a keyed `map`-built association list. -/
theorem lookup_map_self {α : Type} (l : List String) (v : String → α)
    (k : String) (hk : k ∈ l) :
    (l.map fun x => (x, v x)).lookup k = some (v k) := by
  induction l with
  | nil => cases hk
  | cons a as ih =>
    by_cases hak : k = a
    · subst hak
      simp [List.lookup_cons]
    · have hbeq : (k == a) = false := beq_eq_false_iff_ne.mpr hak
      rcases List.mem_cons.mp hk with h | h
      · exact absurd h hak
      · simpa [List.lookup_cons, hbeq] using ih h

/-- On a file of at least 3600 bytes, `read_fileheader` with the default key
set succeeds, decodes every table field from the first 3600 bytes, and
returns the handle unchanged. -/
theorem read_fileheader_all (h : Handle) (hsz : 3600 ≤ h.size) :
    read_fileheader h none = some (mkFH h, h) := by
  have hmin : min 3600 (h.size - 0) = 3600 := by omega
  simp only [read_fileheader, Option.getD_none, hmin, Nat.zero_add]
  rw [if_pos (by decide)]
  rfl

/-- The decoded value of one field of a full `read_fileheader` result. -/
theorem bfhGet_mkFH (h : Handle) (k : String) (off : Nat)
    (hk : FH_BYTE2SAMPLE.lookup k = some off) (hmem : k ∈ FH_FIELDS) :
    bfhGet (mkFH h).bfh k = beSigned (fhContent h) off (fhSize k) := by
  simp only [mkFH, bfhGet, lookup_map_self _ _ _ hmem, Option.getD_some,
    hmem, if_true, hk]

/-- The decoded value of one requested field of `read_fileheader`. -/
theorem bfhGet_read (h : Handle) (hsz : 3600 ≤ h.size) (k : String)
    (off : Nat) (hk : FH_BYTE2SAMPLE.lookup k = some off)
    (hmem : k ∈ FH_FIELDS) :
    (read_fileheader h none).map (fun p => bfhGet p.1.bfh k) =
      some (beSigned (fhContent h) off (fhSize k)) := by
  rw [read_fileheader_all h hsz]
  simp only [Option.map_some']
  exact congrArg some (bfhGet_mkFH h k off hk hmem)

/-- `fileNs` is the `ns` field of the decoded header. -/
theorem fileNs_eq (h : Handle) (hsz : 3600 ≤ h.size) :
    fileNs h = bfhGet (mkFH h).bfh "ns" := by
  unfold fileNs
  rw [read_fileheader_all h hsz]

/-- A two-byte big-endian field over two zero bytes decodes to 0. -/
theorem beSigned_zero2 (buf : Nat → Nat) (a : Nat) (h0 : buf a = 0)
    (h1 : buf (a + 1) = 0) : beSigned buf a 2 = 0 := by
  simp only [beSigned, beUnsigned, List.range_succ, List.range_zero,
    List.nil_append, List.foldl_append, List.foldl_cons, List.foldl_nil,
    Nat.add_zero, h0, h1]
  decide

/-- **C10.** For every open handle and every requested key subset, a
returning `read_fileheader` leaves the handle exactly as it was on entry:
it records the position, seeks to 0 for the 3600-byte preamble, and
restores the recorded position before returning. -/
theorem read_fileheader_restores_position (h : Handle)
    (keys : Option (List String)) (fh : FileHeaderM) (h2 : Handle)
    (heq : read_fileheader h keys = some (fh, h2)) : h2 = h := by
  simp only [read_fileheader] at heq
  split at heq
  · simp only [Option.some.injEq, Prod.mk.injEq] at heq
    exact heq.2.symm
  · exact absurd heq (by simp)

/-- Witness for C10: reading the header of the synthetic file from a handle
positioned at byte 77 returns the handle unchanged. -/
theorem read_fileheader_restores_position_witness :
    ((read_fileheader { cHandle with pos := 77 } (some ["ns"])).map
      Prod.snd) = some { cHandle with pos := 77 } := by
  have hs : (read_fileheader { cHandle with pos := 77 }
      (some ["ns"])).isSome := by decide
  obtain ⟨⟨fh, h2⟩, heq⟩ := Option.isSome_iff_exists.mp hs
  rw [heq]
  simp [read_fileheader_restores_position _ _ _ _ heq]

/-- **C1 (counter-evaluation).** `write_fileheader` does *not* place every
field at its `FH_BYTE2SAMPLE` offset: on the header whose only assignment is
`SegyFormatRevisionNumber = 1`, the 3600-byte buffer carries the field at
bytes 3260-3261 (the sequential write position after the first 27 fields)
while the table offset 3500 stays zero, so `read_fileheader`, which reads at
offset 3500, returns 0 for the field and the round trip fails. -/
theorem write_fileheader_misplaces_tail_fields :
    bytesC1.length = 3600 ∧
    bfhGet fhC1.bfh "SegyFormatRevisionNumber" = 1 ∧
    bytesC1.getD 3260 0 = 0 ∧ bytesC1.getD 3261 0 = 1 ∧
    bytesC1.getD 3500 0 = 0 ∧ bytesC1.getD 3501 0 = 0 ∧
    ((read_fileheader (listHandle bytesC1) none).map fun p =>
      bfhGet p.1.bfh "SegyFormatRevisionNumber") = some 0 := by
  have hpacked :
      (FH_FIELDS.map fun k => packBE (fhSize k) (bfhGet fhC1.bfh k)).flatten
        = packedC1 := by decide
  have hplen : packedC1.length = 66 := by decide
  have hbytes : bytesC1 =
      (List.replicate 3200 32 ++ packedC1) ++ List.replicate 334 0 := by
    show write_fileheader fhC1 = _
    unfold write_fileheader
    rw [hpacked, show fhC1.th = List.replicate 3200 32 from rfl]
    simp only [List.length_replicate, hplen]
    rw [if_neg (lt_irrefl 3200), List.take_replicate, Nat.min_self,
      show (3600 - (3200 + 66) : Nat) = 334 from rfl, List.append_assoc]
  have hlen1 : (List.replicate 3200 32 ++ packedC1).length = 3266 := by
    rw [List.length_append, List.length_replicate, hplen]
  have hlen : bytesC1.length = 3600 := by
    rw [hbytes, List.length_append, hlen1, List.length_replicate]
  have h3260 : bytesC1.getD 3260 0 = 0 := by
    rw [hbytes, List.getD_append _ _ _ _ (by rw [hlen1]; omega),
      List.getD_append_right _ _ _ _ (by rw [List.length_replicate]; omega),
      List.length_replicate]
    decide
  have h3261 : bytesC1.getD 3261 0 = 1 := by
    rw [hbytes, List.getD_append _ _ _ _ (by rw [hlen1]; omega),
      List.getD_append_right _ _ _ _ (by rw [List.length_replicate]; omega),
      List.length_replicate]
    decide
  have h3500 : bytesC1.getD 3500 0 = 0 := by
    rw [hbytes, List.getD_append_right _ _ _ _ (by rw [hlen1]; omega), hlen1]
    decide
  have h3501 : bytesC1.getD 3501 0 = 0 := by
    rw [hbytes, List.getD_append_right _ _ _ _ (by rw [hlen1]; omega), hlen1]
    decide
  have hsz : 3600 ≤ (listHandle bytesC1).size := by
    simp only [listHandle]
    rw [hlen]
  refine ⟨hlen, by decide, h3260, h3261, h3500, h3501, ?_⟩
  rw [bfhGet_read _ hsz "SegyFormatRevisionNumber" 3500 (by decide)
    (by decide),
    show fhSize "SegyFormatRevisionNumber" = 2 from rfl]
  refine congrArg some (beSigned_zero2 _ 3500 ?_ ?_)
  · show (if 3500 < 3600 then (listHandle bytesC1).buf 3500 else 0) = 0
    rw [if_pos (by omega)]
    simp only [listHandle]
    exact h3500
  · show (if 3500 + 1 < 3600 then (listHandle bytesC1).buf (3500 + 1)
      else 0) = 0
    rw [if_pos (by omega)]
    simp only [listHandle]
    rw [show (3500 + 1 : Nat) = 3501 from rfl]
    exact h3501

/-- **C2 (counter-evaluation).** The IBM encode/decode round trip collapses:
`0x41100000` decodes to 1, but re-encoding 1 yields `0x40000000` (the
normalisation loop leaves the mantissa in `[1, 16)` and the
`int(f * 0x01000000) & 0xffffff` mask drops its integer bit), which decodes
to 0 — not within IBM-float precision of 1. -/
theorem ieee_to_ibm_drops_integer_bit :
    ibm_to_ieee 1091567616 = 1 ∧
    ieee_to_ibm (ibm_to_ieee 1091567616) = 1073741824 ∧
    ibm_to_ieee (ieee_to_ibm (ibm_to_ieee 1091567616)) = 0 := by
  have h1 : ibm_to_ieee 1091567616 = 1 := by
    norm_num [ibm_to_ieee]
  have hup : normUp 1 64 = (1, 64) := by
    rw [normUp]
    norm_num
  have hdown : normDown 1 64 = (1, 64) := by
    rw [normDown]
    norm_num
  have h2 : ieee_to_ibm 1 = 1073741824 := by
    rw [ieee_to_ibm]
    norm_num [hup, hdown]
    decide
  have h3 : ibm_to_ieee 1073741824 = 0 := by
    norm_num [ibm_to_ieee]
  exact ⟨h1, by rw [h1, h2], by rw [h1, h2, h3]⟩

set_option maxRecDepth 40000 in
unseal List.merge List.mergeSort in
/-- **C3 (counter-evaluation).** The async scan consumes decoded headers in
completion order: on the synthetic 3-trace file with keys `(1,1,0)`,
`(2,2,0)`, `(1,1,0)`, the completion order `0, 2, 1` (a permutation of the
three task indices) makes `_scan_file_async` fuse the two `(1,1,0)` traces
into one two-trace segment starting at 3600 — overlapping the `(2,2,0)`
trace at 3844 — while the sequential `_scan_file` returns two one-trace
segments; the two catalogs differ. -/
theorem async_scan_depends_on_completion_order :
    ((scanFileAsync "f" cHandle [] 1024 "SourceDepth" [[0, 2, 1]]).map
      fun p => p.2.map fun r => (r.shot, r.segments)) =
      some [((1, 1, 0), [(3600, 2)]), ((2, 2, 0), [(3844, 1)])] ∧
    ((scanFile "f" cHandle [] 1024 "SourceDepth").map
      fun p => p.2.map fun r => (r.shot, r.segments)) =
      some [((1, 1, 0), [(3600, 1), (4088, 1)]), ((2, 2, 0), [(3844, 1)])] ∧
    ([0, 2, 1] : List Nat).Perm (List.range 3) := by
  refine ⟨by decide, by decide, by decide⟩

set_option maxRecDepth 40000 in
unseal List.merge List.mergeSort in
/-- **C6.** Scanning the synthetic file of exactly 3 traces with `ns = 1`
and source keys `(1,1,0)`, `(2,2,0)`, `(1,1,0)` in file order yields exactly
2 ShotRecords: `(1,1,0)` with two one-trace segments (total 2 traces) and
`(2,2,0)` with one one-trace segment. -/
theorem scan_three_trace_segmentation :
    ((scanRecordsOf "f" cHandle [] 1024 "SourceDepth").map
      fun r => (r.shot, r.segments)) =
      [((1, 1, 0), [(3600, 1), (4088, 1)]), ((2, 2, 0), [(3844, 1)])] ∧
    ((scanRecordsOf "f" cHandle [] 1024 "SourceDepth").map
      fun r => (r.segments.map (·.2)).sum) = [2, 1] := by
  refine ⟨by decide, by decide⟩

set_option maxRecDepth 40000 in
/-- **C4 (counterexample).** On a file whose trace region (832 bytes) is not
an exact multiple of the trace size (244), `read_file` does not fail at all:
it decodes `832 // 244 = 3` traces and ignores the 100 trailing bytes. -/
theorem read_file_does_not_fail_on_inexact_size :
    (4432 - 3600) % (240 + 1 * 4) = 100 ∧
    fileNs c4Handle = 1 ∧
    ((read_file c4Handle (some ["SourceX"])).map
      fun b => b.traceheaders.length) = some 3 := by
  refine ⟨by decide, by decide, by decide⟩

/-- Floor division of natural casts agrees with natural division. -/
theorem fdiv_toNat (a b : Nat) : ((a : ℤ).fdiv (b : ℤ)).toNat = a / b := by
  rw [Int.fdiv_eq_tdiv (Int.ofNat_nonneg a) (Int.ofNat_nonneg b),
    ← Int.ofNat_tdiv, Int.toNat_natCast]

/-- **C4 (amended).** `read_file` computes `trace_size = 240 + ns*4` and
`ntraces = (filesize - 3600) // trace_size` by floor division; it decodes
exactly that many traces and never fails, also when the division is not
exact (the trailing bytes are silently ignored). -/
theorem read_file_counts (h : Handle) (keys : Option (List String))
    (hsz : 3600 ≤ h.size) (hns : 0 ≤ fileNs h) :
    ∃ b, read_file h keys = some b ∧
      b.traceheaders.length =
        (h.size - 3600) / (240 + (fileNs h).toNat * 4) ∧
      b.data.length = (fileNs h).toNat ∧
      ∀ row ∈ b.data,
        row.length = (h.size - 3600) / (240 + (fileNs h).toNat * 4) := by
  have hall := read_fileheader_all h hsz
  have hfn := fileNs_eq h hsz
  unfold read_file
  rw [hall]
  dsimp only []
  rw [← hfn, if_pos hns]
  have hntr : ((((h.size : ℤ)) - 3600).fdiv (240 + fileNs h * 4)).toNat =
      (h.size - 3600) / (240 + (fileNs h).toNat * 4) := by
    have h1 : (h.size : ℤ) - 3600 = ((h.size - 3600 : ℕ) : ℤ) := by omega
    have h2 : (240 : ℤ) + fileNs h * 4 =
        ((240 + (fileNs h).toNat * 4 : ℕ) : ℤ) := by omega
    rw [h1, h2, fdiv_toNat]
  rw [hntr]
  have hfit : 3600 + (240 + (fileNs h).toNat * 4) *
      ((h.size - 3600) / (240 + (fileNs h).toNat * 4)) ≤ h.size := by
    have := Nat.div_mul_le_self (h.size - 3600) (240 + (fileNs h).toNat * 4)
    have hcomm : (240 + (fileNs h).toNat * 4) *
        ((h.size - 3600) / (240 + (fileNs h).toNat * 4)) =
        ((h.size - 3600) / (240 + (fileNs h).toNat * 4)) *
          (240 + (fileNs h).toNat * 4) := Nat.mul_comm _ _
    omega
  unfold read_traces
  rw [if_pos hfit]
  dsimp only []
  refine ⟨_, rfl, ?_, ?_, ?_⟩
  · simp only [List.length_map, List.length_range]
  · simp only [List.length_map, List.length_range]
  · intro row hrow
    obtain ⟨j, _, rfl⟩ := List.mem_map.mp hrow
    simp only [List.length_map, List.length_range]

/-- Witness for the amended C4: on the file with 100 trailing junk bytes the
theorem applies, giving exactly `832 // 244 = 3` decoded traces. -/
theorem read_file_counts_witness :
    ∃ b, read_file c4Handle none = some b ∧
      b.traceheaders.length =
        (c4Handle.size - 3600) / (240 + (fileNs c4Handle).toNat * 4) ∧
      b.data.length = (fileNs c4Handle).toNat ∧
      ∀ row ∈ b.data,
        row.length =
          (c4Handle.size - 3600) / (240 + (fileNs c4Handle).toNat * 4) :=
  read_file_counts c4Handle none (by decide) (by decide)

set_option maxRecDepth 40000 in
/-- **C5 (counter-evaluation).** `read_shot` on the `(1,1,0)` record of the
synthetic file (two segments of one trace each, `ns = 1`) returns a block
with 2 trace headers but a `2 × 1` sample matrix: `np.concatenate(..,
axis=0)` stacks the per-segment matrices along the *sample* axis, not the
trace axis, so the claimed `ns × (c1 + c2) = 1 × 2` matrix is not produced. -/
theorem read_shot_concatenates_sample_axis :
    bfhGet fhC6.bfh "ns" = 1 ∧
    ((read_shot fhC6 recC5 fsC (some ["SourceX"])).map
      fun b => (b.traceheaders.length, b.data.length,
        b.data.map List.length)) = some (2, 2, [1, 1]) := by
  refine ⟨by decide, by decide⟩

/-- `shotLe` is transitive. -/
theorem shotLe_trans (a b c : Int × Int × Int) (hab : shotLe a b = true)
    (hbc : shotLe b c = true) : shotLe a c = true := by
  simp only [shotLe, decide_eq_true_eq] at *
  omega

/-- `shotLe` is total. -/
theorem shotLe_total (a b : Int × Int × Int) :
    (shotLe a b || shotLe b a) = true := by
  simp only [shotLe, Bool.or_eq_true, decide_eq_true_eq]
  omega

/-- **C7.** For every nonempty set of per-file scan results with equal file
headers (in any completion order), the merged catalog is a permutation of
the concatenation of the per-file record lists, sorted ascending by the
shot key; no record is merged away, so two files sharing a key keep two
distinct records, each with its own path. -/
theorem segy_scan_merge_sorted_concat (s0 : FileHeaderM × List ShotRecord)
    (rest : List (FileHeaderM × List ShotRecord))
    (hfh : ∀ s ∈ s0 :: rest, s.1 = s0.1) :
    ∃ out, segy_scan_merge (s0 :: rest) = some (s0.1, out) ∧
      out.Perm ((s0 :: rest).map Prod.snd).flatten ∧
      out.Pairwise (fun a b => shotLe a.shot b.shot = true) ∧
      ∀ s ∈ s0 :: rest, ∀ r ∈ s.2, r ∈ out := by
  refine ⟨((s0 :: rest).map Prod.snd).flatten.mergeSort
      (fun a b => shotLe a.shot b.shot), ?_, ?_, ?_, ?_⟩
  · have hc : ((s0 :: rest).all fun s => s.1 = s0.1) = true := by
      rw [List.all_eq_true]
      intro x hx
      exact decide_eq_true (hfh x hx)
    dsimp only [segy_scan_merge]
    rw [if_pos hc]
  · exact List.mergeSort_perm _ _
  · exact List.sorted_mergeSort
      (fun a b c hab hbc => shotLe_trans a.shot b.shot c.shot hab hbc)
      (fun a b => shotLe_total a.shot b.shot) _
  · intro s hs r hr
    have hmem : r ∈ ((s0 :: rest).map Prod.snd).flatten :=
      List.mem_flatten.mpr ⟨s.2, List.mem_map_of_mem _ hs, hr⟩
    exact ((List.mergeSort_perm _ _).mem_iff).mpr hmem

/-- The two single-record scan results used by the C7 witness: identical
(empty) headers, the same shot key `(1,2,3)`, different paths. -/
theorem segy_scan_merge_sorted_concat_witness :
    ∃ out,
      segy_scan_merge
          [((⟨[], []⟩ : FileHeaderM),
              [(⟨"a.segy", (1, 2, 3), [(3600, 4)], [], 1, 0⟩ : ShotRecord)]),
           ((⟨[], []⟩ : FileHeaderM),
              [(⟨"b.segy", (1, 2, 3), [(3600, 4)], [], 1, 0⟩ : ShotRecord)])] =
        some ((⟨[], []⟩ : FileHeaderM), out) ∧
      out.Perm
        [(⟨"a.segy", (1, 2, 3), [(3600, 4)], [], 1, 0⟩ : ShotRecord),
         (⟨"b.segy", (1, 2, 3), [(3600, 4)], [], 1, 0⟩ : ShotRecord)] ∧
      out.Pairwise (fun a b => shotLe a.shot b.shot = true) ∧
      ∀ s ∈ [((⟨[], []⟩ : FileHeaderM),
              [(⟨"a.segy", (1, 2, 3), [(3600, 4)], [], 1, 0⟩ : ShotRecord)]),
           ((⟨[], []⟩ : FileHeaderM),
              [(⟨"b.segy", (1, 2, 3), [(3600, 4)], [], 1, 0⟩ : ShotRecord)])],
        ∀ r ∈ s.2, r ∈ out :=
  segy_scan_merge_sorted_concat
    ((⟨[], []⟩ : FileHeaderM),
      [(⟨"a.segy", (1, 2, 3), [(3600, 4)], [], 1, 0⟩ : ShotRecord)])
    [((⟨[], []⟩ : FileHeaderM),
      [(⟨"b.segy", (1, 2, 3), [(3600, 4)], [], 1, 0⟩ : ShotRecord)])]
    (by decide)

/-- The chunked header iteration equals the plain in-order stream: each
round emits `min chunk remaining ≥ 1` in-order items, so chunking is
observationally transparent (`remaining` rounds of fuel always suffice). -/
theorem iterTHAux_closed (buf : Nat → Nat) (ks : List String) (ts chunk : Nat)
    (hc : chunk ≠ 0) :
    ∀ fuel remaining pos, remaining ≤ fuel →
      iterTHAux buf ks ts chunk fuel pos remaining =
        (List.range remaining).map fun i =>
          (pos + i * ts, parseTraceHeader buf (pos + i * ts) ks) := by
  intro fuel
  induction fuel with
  | zero =>
    intro remaining pos hr
    have h0 : remaining = 0 := by omega
    subst h0
    simp [iterTHAux]
  | succ fuel ih =>
    intro remaining pos hr
    match remaining, hr with
    | 0, _ => simp [iterTHAux]
    | r + 1, hr =>
      simp only [iterTHAux]
      rw [if_neg hc]
      have hn1 : 1 ≤ min chunk (r + 1) ∧ min chunk (r + 1) ≤ r + 1 := by
        omega
      rw [ih (r + 1 - min chunk (r + 1)) (pos + min chunk (r + 1) * ts)
        (by omega)]
      conv_rhs => rw [show r + 1 = min chunk (r + 1) +
        (r + 1 - min chunk (r + 1)) by omega, List.range_add]
      rw [List.map_append, List.map_map]
      congr 1
      apply List.map_congr_left
      intro x _
      have harith : pos + (min chunk (r + 1) + x) * ts =
          pos + min chunk (r + 1) * ts + x * ts := by ring
      simp only [Function.comp_apply, harith]

/-- `_iter_trace_headers` yields the in-file-order stream. -/
theorem iterTraceHeaders_closed (buf : Nat → Nat) (ks : List String)
    (ts pos remaining chunk : Nat) (hc : chunk ≠ 0) :
    iterTraceHeaders buf ks ts pos remaining chunk =
      (List.range remaining).map fun i =>
        (pos + i * ts, parseTraceHeader buf (pos + i * ts) ks) :=
  iterTHAux_closed buf ks ts chunk hc remaining remaining pos le_rfl

/-! Structural lemmas about the record-list operations of the
segmentation loop. -/

theorem shots_cons (r : ShotRecord) (l : List ShotRecord) :
    shots (r :: l) = r.shot :: shots l := rfl

theorem segsOf_cons (r : ShotRecord) (l : List ShotRecord) :
    segsOf (r :: l) = r.segments ++ segsOf l := by
  simp [segsOf]

theorem segsOf_append_one (recs : List ShotRecord) (r : ShotRecord) :
    segsOf (recs ++ [r]) = segsOf recs ++ r.segments := by
  simp [segsOf, List.flatten_append]

theorem shots_updateSummaryAt (recs : List ShotRecord)
    (src : Int × Int × Int) (th : THdr) (ks : List String) :
    shots (updateSummaryAt recs src th ks) = shots recs := by
  simp only [shots, updateSummaryAt, List.map_map]
  apply List.map_congr_left
  intro r _
  by_cases hr : r.shot = src <;> simp [hr]

theorem segsOf_updateSummaryAt (recs : List ShotRecord)
    (src : Int × Int × Int) (th : THdr) (ks : List String) :
    segsOf (updateSummaryAt recs src th ks) = segsOf recs := by
  simp only [segsOf, updateSummaryAt, List.map_map]
  congr 1
  apply List.map_congr_left
  intro r _
  by_cases hr : r.shot = src <;> simp [hr]

theorem shots_appendSeg (recs : List ShotRecord) (p : Int × Int × Int)
    (seg : Nat × Nat) : shots (appendSeg recs p seg) = shots recs := by
  simp only [shots, appendSeg, List.map_map]
  apply List.map_congr_left
  intro r _
  by_cases hr : r.shot = p <;> simp [hr]

theorem segsOf_insertRecord (path : String) (ns dt : Int)
    (recs : List ShotRecord) (src : Int × Int × Int) :
    segsOf (insertRecord path ns dt recs src) = segsOf recs := by
  unfold insertRecord
  split
  · rfl
  · rw [segsOf_append_one]
    simp

theorem mem_shots_insertRecord (path : String) (ns dt : Int)
    (recs : List ShotRecord) (src : Int × Int × Int) :
    src ∈ shots (insertRecord path ns dt recs src) := by
  unfold insertRecord
  split
  · rename_i hany
    rw [List.any_eq_true] at hany
    obtain ⟨r, hr, hshot⟩ := hany
    rw [decide_eq_true_eq] at hshot
    exact hshot ▸ List.mem_map_of_mem _ hr
  · simp [shots]

theorem mem_shots_insertRecord_of_mem (path : String) (ns dt : Int)
    (recs : List ShotRecord) (src x : Int × Int × Int)
    (hx : x ∈ shots recs) :
    x ∈ shots (insertRecord path ns dt recs src) := by
  unfold insertRecord
  split
  · exact hx
  · simp only [shots, List.map_append]
    exact List.mem_append_left _ hx

theorem nodup_shots_insertRecord (path : String) (ns dt : Int)
    (recs : List ShotRecord) (src : Int × Int × Int)
    (hnd : (shots recs).Nodup) :
    (shots (insertRecord path ns dt recs src)).Nodup := by
  unfold insertRecord
  split
  · exact hnd
  · rename_i hany
    have hnot : src ∉ shots recs := by
      intro hmem
      apply hany
      rw [List.any_eq_true]
      obtain ⟨r, hr, hshot⟩ := List.mem_map.mp hmem
      exact ⟨r, hr, decide_eq_true hshot⟩
    have hform : shots (recs ++ [⟨path, src, [], [], ns, dt⟩]) =
        shots recs ++ [src] := by simp [shots]
    rw [hform, List.nodup_append]
    refine ⟨hnd, List.nodup_singleton _, ?_⟩
    intro a ha hb
    rw [List.mem_singleton] at hb
    exact hnot (hb ▸ ha)

theorem appendSeg_not_mem (recs : List ShotRecord) (p : Int × Int × Int)
    (seg : Nat × Nat) (hp : p ∉ shots recs) : appendSeg recs p seg = recs := by
  unfold appendSeg
  have hall : ∀ r ∈ recs,
      (if r.shot = p then { r with segments := r.segments ++ [seg] }
        else r) = r := by
    intro r hr
    rw [if_neg]
    intro heq
    exact hp (heq ▸ List.mem_map_of_mem _ hr)
  rw [List.map_congr_left hall]
  simp

theorem segsOf_appendSeg_perm (recs : List ShotRecord)
    (p : Int × Int × Int) (seg : Nat × Nat) (hmem : p ∈ shots recs)
    (hnd : (shots recs).Nodup) :
    (segsOf (appendSeg recs p seg)).Perm (segsOf recs ++ [seg]) := by
  induction recs with
  | nil => cases hmem
  | cons r rest ih =>
    rw [shots_cons, List.nodup_cons] at hnd
    have hstep : appendSeg (r :: rest) p seg =
        (if r.shot = p then { r with segments := r.segments ++ [seg] }
          else r) :: appendSeg rest p seg := rfl
    by_cases hr : r.shot = p
    · have hnotin : p ∉ shots rest := hr ▸ hnd.1
      rw [hstep, if_pos hr, appendSeg_not_mem rest p seg hnotin,
        segsOf_cons, segsOf_cons]
      show ((r.segments ++ [seg]) ++ segsOf rest).Perm
        ((r.segments ++ segsOf rest) ++ [seg])
      rw [List.append_assoc, List.append_assoc]
      exact List.Perm.append_left _ List.perm_append_comm
    · have hmem' : p ∈ shots rest := by
        rcases List.mem_cons.mp (by rwa [shots_cons] at hmem) with h | h
        · exact absurd h.symm hr
        · exact h
      rw [hstep, if_neg hr, segsOf_cons, segsOf_cons, List.append_assoc]
      exact List.Perm.append_left _ (ih hmem' hnd.2)

/-! The consecutive-tiling predicate. -/

theorem consecFT_append (ts : Nat) :
    ∀ {a b c : Nat} {L M : List (Nat × Nat)}, consecFT ts a b L →
      consecFT ts b c M → consecFT ts a c (L ++ M) := by
  intro a b c L
  induction L generalizing a with
  | nil =>
    intro M h1 h2
    have : a = b := h1
    simpa [this] using h2
  | cons s rest ih =>
    intro M h1 h2
    obtain ⟨hs, hc0, hrest⟩ := h1
    exact ⟨hs, hc0, ih hrest h2⟩

theorem consecFT_sum (ts : Nat) :
    ∀ {a b : Nat} {L : List (Nat × Nat)}, consecFT ts a b L →
      a + (L.map (fun s => s.2)).sum = b := by
  intro a b L
  induction L generalizing a with
  | nil =>
    intro h1
    have : a = b := h1
    simp [this]
  | cons s rest ih =>
    intro h1
    obtain ⟨_, _, hrest⟩ := h1
    have := ih hrest
    simp only [List.map_cons, List.sum_cons]
    omega

theorem consecFT_mem (ts : Nat) :
    ∀ {a b : Nat} {L : List (Nat × Nat)}, consecFT ts a b L →
      ∀ s ∈ L, ∃ j, a ≤ j ∧ j + s.2 ≤ b ∧ s.1 = 3600 + j * ts ∧ 0 < s.2 := by
  intro a b L
  induction L generalizing a with
  | nil =>
    intro _ s hs
    cases hs
  | cons t rest ih =>
    intro h1 s hs
    obtain ⟨ht, hc0, hrest⟩ := h1
    rcases List.mem_cons.mp hs with h | h
    · subst h
      have hsum := consecFT_sum ts hrest
      exact ⟨a, le_rfl, by omega, ht, hc0⟩
    · obtain ⟨j, hja, hjb, hjs, hjc⟩ := ih hrest s h
      exact ⟨j, by omega, hjb, hjs, hjc⟩

theorem consecFT_lb (ts : Nat) :
    ∀ {a b : Nat} {L : List (Nat × Nat)}, consecFT ts a b L →
      ∀ s ∈ L, 3600 + a * ts ≤ s.1 := by
  intro a b L
  induction L generalizing a with
  | nil =>
    intro _ s hs
    cases hs
  | cons t rest ih =>
    intro h1 s hs
    obtain ⟨ht, _, hrest⟩ := h1
    rcases List.mem_cons.mp hs with h | h
    · subst h
      exact ht.ge
    · have hlb := ih hrest s h
      have hmul : a * ts ≤ (a + t.2) * ts :=
        Nat.mul_le_mul_right _ (Nat.le_add_right _ _)
      omega

theorem consecFT_pairwise (ts : Nat) :
    ∀ {a b : Nat} {L : List (Nat × Nat)}, consecFT ts a b L →
      L.Pairwise (fun s t => s.1 + s.2 * ts ≤ t.1) := by
  intro a b L
  induction L generalizing a with
  | nil => intro _; exact List.Pairwise.nil
  | cons s rest ih =>
    intro h1
    obtain ⟨hs, _, hrest⟩ := h1
    refine List.Pairwise.cons ?_ (ih hrest)
    intro t ht
    have hlb := consecFT_lb ts hrest t ht
    have harith : (a + s.2) * ts = a * ts + s.2 * ts := by ring
    omega

/-- Unfolding one step of the segmentation fold. -/
theorem scanFold_succ (path : String) (ns dt : Int) (dk : String)
    (extras : List String) (f : Nat → THdr) (ts n : Nat) :
    scanFold path ns dt dk extras f ts (n + 1) =
      scanStep path ns dt dk extras (scanFold path ns dt dk extras f ts n)
        (3600 + n * ts, f n) := by
  simp [scanFold, streamN, List.range_succ]

/-- Main invariant of the segmentation fold: shot keys are unique; after
`n` traces either nothing happened (`n = 0`) or a segment over trace
indices `[j, n)` is open, its key's record exists, and the closed segments
collected in the records are (a permutation of) a consecutive tiling of
the trace indices `[0, j)`. -/
theorem scanFold_inv (path : String) (ns dt : Int) (dk : String)
    (extras : List String) (f : Nat → THdr) (ts : Nat) :
    ∀ n,
      (shots (scanFold path ns dt dk extras f ts n).records).Nodup ∧
      (((scanFold path ns dt dk extras f ts n).previous = none ∧ n = 0 ∧
          (scanFold path ns dt dk extras f ts n).records = []) ∨
        (∃ p j, (scanFold path ns dt dk extras f ts n).previous = some p ∧
          j < n ∧
          (scanFold path ns dt dk extras f ts n).segStart = 3600 + j * ts ∧
          (scanFold path ns dt dk extras f ts n).segCount = n - j ∧
          p ∈ shots (scanFold path ns dt dk extras f ts n).records ∧
          ∃ L, consecFT ts 0 j L ∧
            (segsOf (scanFold path ns dt dk extras f ts n).records).Perm
              L)) := by
  intro n
  induction n with
  | zero =>
    constructor
    · show (shots initScanState.records).Nodup
      simp [initScanState, shots]
    · left
      refine ⟨rfl, rfl, rfl⟩
  | succ n ih =>
    obtain ⟨hnd, hinv⟩ := ih
    rw [scanFold_succ]
    set st := scanFold path ns dt dk extras f ts n with hst
    rcases hinv with ⟨hprev, hn0, hrecs⟩ | ⟨p, j, hprev, hj, hstart, hcount,
      hpmem, L, hL, hperm⟩
    · -- first trace of the file
      subst hn0
      simp only [scanStep, hprev]
      constructor
      · rw [shots_updateSummaryAt]
        exact nodup_shots_insertRecord _ _ _ _ _ hnd
      · right
        refine ⟨keyOf dk (f 0), 0, rfl, by omega, rfl, rfl, ?_, [], rfl, ?_⟩
        · rw [shots_updateSummaryAt]
          exact mem_shots_insertRecord _ _ _ _ _
        · rw [segsOf_updateSummaryAt, segsOf_insertRecord, hrecs]
          exact List.Perm.refl _
    · by_cases hsp : keyOf dk (f n) = p
      · -- same key: the open segment grows
        simp only [scanStep, hprev, if_pos hsp]
        constructor
        · rw [shots_updateSummaryAt]
          exact nodup_shots_insertRecord _ _ _ _ _ hnd
        · right
          refine ⟨p, j, rfl, by omega, hstart, by omega, ?_, L, hL, ?_⟩
          · rw [shots_updateSummaryAt]
            exact mem_shots_insertRecord_of_mem _ _ _ _ _ _ hpmem
          · rw [segsOf_updateSummaryAt, segsOf_insertRecord]
            exact hperm
      · -- key change: close the segment onto the previous record
        simp only [scanStep, hprev, if_neg hsp]
        have hnd1 : (shots (updateSummaryAt
            (insertRecord path ns dt st.records (keyOf dk (f n)))
            (keyOf dk (f n)) (f n) extras)).Nodup := by
          rw [shots_updateSummaryAt]
          exact nodup_shots_insertRecord _ _ _ _ _ hnd
        have hpmem1 : p ∈ shots (updateSummaryAt
            (insertRecord path ns dt st.records (keyOf dk (f n)))
            (keyOf dk (f n)) (f n) extras) := by
          rw [shots_updateSummaryAt]
          exact mem_shots_insertRecord_of_mem _ _ _ _ _ _ hpmem
        constructor
        · rw [shots_appendSeg]
          exact hnd1
        · right
          refine ⟨keyOf dk (f n), n, rfl, by omega, rfl, by omega, ?_,
            L ++ [(3600 + j * ts, n - j)], ?_, ?_⟩
          · rw [shots_appendSeg, shots_updateSummaryAt]
            exact mem_shots_insertRecord _ _ _ _ _
          · refine consecFT_append ts hL ⟨rfl, by omega, ?_⟩
            show j + (n - j) = n
            omega
          · rw [hstart, hcount]
            refine (segsOf_appendSeg_perm _ _ _ hpmem1 hnd1).trans ?_
            rw [segsOf_updateSummaryAt, segsOf_insertRecord]
            exact hperm.append_right _

/-- After closing the final segment, the collected segments tile the whole
trace-index interval `[0, n)`, up to permutation. -/
theorem scanFold_close_consec (path : String) (ns dt : Int) (dk : String)
    (extras : List String) (f : Nat → THdr) (ts n : Nat) :
    ∃ L, consecFT ts 0 n L ∧
      (segsOf (closeScan (scanFold path ns dt dk extras f ts n))).Perm L := by
  obtain ⟨hnd, hinv⟩ := scanFold_inv path ns dt dk extras f ts n
  rcases hinv with ⟨hprev, hn0, hrecs⟩ | ⟨p, j, hprev, hj, hstart, hcount,
    hpmem, L, hL, hperm⟩
  · subst hn0
    refine ⟨[], rfl, ?_⟩
    unfold closeScan
    rw [hprev]
    rw [hrecs]
    exact List.Perm.refl _
  · refine ⟨L ++ [(3600 + j * ts, n - j)],
      consecFT_append ts hL ⟨rfl, by omega, show j + (n - j) = n by omega⟩,
      ?_⟩
    unfold closeScan
    rw [hprev]
    dsimp only []
    rw [hstart, hcount]
    exact (segsOf_appendSeg_perm _ _ _ hpmem hnd).trans (hperm.append_right _)

/-- Sorting the records leaves the collected segments unchanged up to
permutation. -/
theorem segsOf_mergeSort_perm (l : List ShotRecord)
    (le : ShotRecord → ShotRecord → Bool) :
    (segsOf (l.mergeSort le)).Perm (segsOf l) := by
  unfold segsOf
  exact ((l.mergeSort_perm le).map (fun r => r.segments)).flatten

/-- A successful single-file scan is the sorted close of the segmentation
fold over the in-order header stream. -/
theorem scanRecordsOf_eq (path : String) (h : Handle) (extras : List String)
    (chunk : Nat) (dk : String) (hchunk : 0 < chunk) (hsz : 3600 ≤ h.size)
    (hns : 0 ≤ fileNs h) :
    scanRecordsOf path h extras chunk dk =
      (closeScan (scanFold path (fileNs h) (bfhGet (mkFH h).bfh "dt") dk
          extras
          (fun i => parseTraceHeader h.buf
            (3600 + i * (240 + (fileNs h).toNat * 4)) (traceKeys dk extras))
          (240 + (fileNs h).toNat * 4)
          (scanTotal (mkFH h) h.size))).mergeSort
        (fun a b => shotLe a.shot b.shot) := by
  have hall := read_fileheader_all h hsz
  have hfn := fileNs_eq h hsz
  unfold scanRecordsOf scanFile scanStreamOf
  rw [hall]
  dsimp only []
  rw [← hfn, if_pos hns, if_pos hns]
  simp only [Option.map_some', Option.getD_some]
  rw [iterTraceHeaders_closed _ _ _ _ _ _ (by omega)]
  unfold scanFromStream scanFold streamN
  rw [← hfn]

/-- **C9.** On a file holding exactly `N` traces of size
`trace_size = 240 + ns*4` after the 3600-byte header, the segments of all
returned ShotRecords partition the trace region: every segment start is
`3600` plus a trace-index multiple of `trace_size` within the file, the
covered byte ranges are pairwise disjoint, and the segment trace counts sum
to `N`. -/
theorem scan_segments_partition (path : String) (h : Handle)
    (extras : List String) (chunk : Nat) (dk : String) (N : Nat)
    (hchunk : 0 < chunk) (hns : 0 ≤ fileNs h)
    (hsize : h.size = 3600 + N * (240 + (fileNs h).toNat * 4)) :
    (∀ s ∈ segsOf (scanRecordsOf path h extras chunk dk),
      ∃ j, j < N ∧ s.1 = 3600 + j * (240 + (fileNs h).toNat * 4) ∧
        0 < s.2 ∧ j + s.2 ≤ N) ∧
    (segsOf (scanRecordsOf path h extras chunk dk)).Pairwise
      (fun s t => s.1 + s.2 * (240 + (fileNs h).toNat * 4) ≤ t.1 ∨
        t.1 + t.2 * (240 + (fileNs h).toNat * 4) ≤ s.1) ∧
    ((segsOf (scanRecordsOf path h extras chunk dk)).map
      (fun s => s.2)).sum = N := by
  have hsz : 3600 ≤ h.size := by
    rw [hsize]
    exact Nat.le_add_right _ _
  have heq := scanRecordsOf_eq path h extras chunk dk hchunk hsz hns
  have htot : scanTotal (mkFH h) h.size = N := by
    unfold scanTotal
    rw [← fileNs_eq h hsz]
    have h1 : (h.size : ℤ) - 3600 =
        ((N * (240 + (fileNs h).toNat * 4) : ℕ) : ℤ) := by
      rw [hsize]
      push_cast
      ring
    have h2 : (240 : ℤ) + fileNs h * 4 =
        ((240 + (fileNs h).toNat * 4 : ℕ) : ℤ) := by
      push_cast
      omega
    rw [h1, h2, fdiv_toNat]
    exact Nat.mul_div_cancel N
      (Nat.lt_of_lt_of_le (by norm_num) (Nat.le_add_right 240 _))
  rw [htot] at heq
  rw [heq]
  obtain ⟨L, hL, hperm0⟩ := scanFold_close_consec path (fileNs h)
    (bfhGet (mkFH h).bfh "dt") dk extras
    (fun i => parseTraceHeader h.buf
      (3600 + i * (240 + (fileNs h).toNat * 4)) (traceKeys dk extras))
    (240 + (fileNs h).toNat * 4) N
  have hperm := (segsOf_mergeSort_perm
    (closeScan (scanFold path (fileNs h) (bfhGet (mkFH h).bfh "dt") dk extras
      (fun i => parseTraceHeader h.buf
        (3600 + i * (240 + (fileNs h).toNat * 4)) (traceKeys dk extras))
      (240 + (fileNs h).toNat * 4) N))
    (fun a b => shotLe a.shot b.shot)).trans hperm0
  refine ⟨?_, ?_, ?_⟩
  · intro s hs
    obtain ⟨j, hj0, hjb, hjs, hjc⟩ :=
      consecFT_mem _ hL s (hperm.mem_iff.mp hs)
    exact ⟨j, by omega, hjs, hjc, hjb⟩
  · have hpw : L.Pairwise
        (fun s t => s.1 + s.2 * (240 + (fileNs h).toNat * 4) ≤ t.1 ∨
          t.1 + t.2 * (240 + (fileNs h).toNat * 4) ≤ s.1) :=
      (consecFT_pairwise _ hL).imp (fun hab => Or.inl hab)
    exact (hperm.pairwise_iff (fun hxy => hxy.symm)).mpr hpw
  · have hsum := consecFT_sum _ hL
    have hmap := (hperm.map (fun s => s.2)).sum_eq
    omega

/-- Witness for C9: the synthetic 3-trace file satisfies the hypotheses
with `N = 3` and trace size 244. -/
theorem scan_segments_partition_witness :
    (∀ s ∈ segsOf (scanRecordsOf "f" cHandle [] 1024 "SourceDepth"),
      ∃ j, j < 3 ∧ s.1 = 3600 + j * (240 + (fileNs cHandle).toNat * 4) ∧
        0 < s.2 ∧ j + s.2 ≤ 3) ∧
    (segsOf (scanRecordsOf "f" cHandle [] 1024 "SourceDepth")).Pairwise
      (fun s t => s.1 + s.2 * (240 + (fileNs cHandle).toNat * 4) ≤ t.1 ∨
        t.1 + t.2 * (240 + (fileNs cHandle).toNat * 4) ≤ s.1) ∧
    ((segsOf (scanRecordsOf "f" cHandle [] 1024 "SourceDepth")).map
      (fun s => s.2)).sum = 3 :=
  scan_segments_partition "f" cHandle [] 1024 "SourceDepth" 3
    (by decide) (by decide) (by decide)

theorem mergeMM_merge_same (o : Option (Int × Int)) (v : Int) :
    mergeMM (some (mergeMM o v)) v = mergeMM o v := by
  cases o with
  | none => simp [mergeMM]
  | some p => simp [mergeMM, min_assoc, max_assoc]

theorem specMM_append_one (l : List Int) (v : Int) :
    specMM (l ++ [v]) = some (mergeMM (specMM l) v) := by
  cases l with
  | nil => simp [specMM, mergeMM]
  | cons w t => simp [specMM, mergeMM, List.foldl_append]

theorem streamVals_append_one (dk : String) (stream : List (Nat × THdr))
    (it : Nat × THdr) (key : Int × Int × Int) (k : String) :
    streamVals dk (stream ++ [it]) key k =
      streamVals dk stream key k ++
        (if keyOf dk it.2 = key then [it.2 k] else []) := by
  unfold streamVals
  rw [List.filter_append, List.map_append]
  congr 1
  by_cases h : keyOf dk it.2 = key <;> simp [h]

theorem streamVals_eq_nil (dk : String) (stream : List (Nat × THdr))
    (key : Int × Int × Int) (k : String)
    (h : ∀ it ∈ stream, keyOf dk it.2 ≠ key) :
    streamVals dk stream key k = [] := by
  unfold streamVals
  rw [List.filter_eq_nil_iff.mpr (fun it hit => by simp [h it hit])]
  rfl

theorem lookup_map_mm (k : String) (v : Int) :
    ∀ s : List (String × (Int × Int)),
      List.lookup k (s.map (fun e =>
        if e.1 == k then (e.1, (min e.2.1 v, max e.2.2 v)) else e)) =
      (List.lookup k s).map (fun q => (min q.1 v, max q.2 v)) := by
  intro s
  induction s with
  | nil => rfl
  | cons e t ih =>
    obtain ⟨a, p⟩ := e
    rw [List.map_cons]
    dsimp only
    by_cases hak : a = k
    · have hb : (a == k) = true := beq_iff_eq.mpr hak
      have hb' : (k == a) = true := beq_iff_eq.mpr hak.symm
      rw [if_pos hb, List.lookup_cons, List.lookup_cons, hb']
      rfl
    · have hb : (a == k) = false := beq_eq_false_iff_ne.mpr hak
      have hb' : (k == a) = false := beq_eq_false_iff_ne.mpr (Ne.symm hak)
      rw [if_neg (by simp [hb]), List.lookup_cons, List.lookup_cons, hb', ih]

theorem lookup_map_mm_other (k k' : String) (v : Int) (hne : k' ≠ k) :
    ∀ s : List (String × (Int × Int)),
      List.lookup k' (s.map (fun e =>
        if e.1 == k then (e.1, (min e.2.1 v, max e.2.2 v)) else e)) =
      List.lookup k' s := by
  intro s
  induction s with
  | nil => rfl
  | cons e t ih =>
    obtain ⟨a, p⟩ := e
    rw [List.map_cons]
    dsimp only
    by_cases hak : a = k
    · have hb : (a == k) = true := beq_iff_eq.mpr hak
      have hb' : (k' == a) = false :=
        beq_eq_false_iff_ne.mpr (fun h => hne (h.trans hak))
      rw [if_pos hb, List.lookup_cons, List.lookup_cons, hb', ih]
    · have hb : (a == k) = false := beq_eq_false_iff_ne.mpr hak
      rw [if_neg (by simp [hb]), List.lookup_cons]
      cases hk'a : (k' == a) with
      | true =>
        rw [List.lookup_cons, hk'a]
      | false =>
        rw [List.lookup_cons, hk'a, ih]

theorem lookup_append_other (k k' : String) (v : Int × Int) (hne : k' ≠ k) :
    ∀ s : List (String × (Int × Int)),
      List.lookup k' (s ++ [(k, v)]) = List.lookup k' s := by
  intro s
  induction s with
  | nil =>
    have hb : (k' == k) = false := beq_eq_false_iff_ne.mpr hne
    rw [List.nil_append, List.lookup_cons, hb]
  | cons e t ih =>
    obtain ⟨a, p⟩ := e
    rw [List.cons_append, List.lookup_cons, List.lookup_cons]
    cases hk'a : (k' == a) with
    | true => rfl
    | false => exact ih

theorem lookup_append_kv (k : String) (v : Int × Int) :
    ∀ s : List (String × (Int × Int)),
      (∀ e ∈ s, e.1 ≠ k) →
      List.lookup k (s ++ [(k, v)]) = some v := by
  intro s
  induction s with
  | nil =>
    intro _
    rw [List.nil_append, List.lookup_cons, beq_self_eq_true]
  | cons e t ih =>
    intro hall
    obtain ⟨a, p⟩ := e
    have hb' : (k == a) = false :=
      beq_eq_false_iff_ne.mpr (Ne.symm (hall (a, p) (List.mem_cons_self _ _)))
    rw [List.cons_append, List.lookup_cons, hb']
    exact ih (fun e he => hall e (List.mem_cons_of_mem _ he))

theorem lookup_eq_none_of_all_ne (k : String) :
    ∀ s : List (String × (Int × Int)),
      (∀ e ∈ s, e.1 ≠ k) → List.lookup k s = none := by
  intro s
  induction s with
  | nil => intro _; rfl
  | cons e t ih =>
    intro hall
    obtain ⟨a, p⟩ := e
    have hb' : (k == a) = false :=
      beq_eq_false_iff_ne.mpr (Ne.symm (hall (a, p) (List.mem_cons_self _ _)))
    rw [List.lookup_cons, hb']
    exact ih (fun e he => hall e (List.mem_cons_of_mem _ he))

theorem any_key_false_all_ne (k : String)
    (s : List (String × (Int × Int)))
    (h : s.any (fun e => e.1 == k) = false) :
    ∀ e ∈ s, e.1 ≠ k := by
  intro e he heq
  rw [List.any_eq_false] at h
  exact absurd (beq_iff_eq.mpr heq) (by simpa using h e he)

theorem any_key_true_lookup_some (k : String) :
    ∀ s : List (String × (Int × Int)),
      s.any (fun e => e.1 == k) = true →
      ∃ q, List.lookup k s = some q := by
  intro s
  induction s with
  | nil => intro h; cases h
  | cons e t ih =>
    intro h
    obtain ⟨a, p⟩ := e
    by_cases hak : a = k
    · subst hak
      exact ⟨p, by simp [List.lookup_cons]⟩
    · have hb' : (k == a) = false := beq_eq_false_iff_ne.mpr (Ne.symm hak)
      have hb : (a == k) = false := beq_eq_false_iff_ne.mpr hak
      simp only [List.any_cons, hb, Bool.false_or] at h
      obtain ⟨q, hq⟩ := ih h
      exact ⟨q, by simp [List.lookup_cons, hb', hq]⟩

theorem USO_lookup_self (s : List (String × (Int × Int))) (k : String)
    (v : Int) :
    List.lookup k (updateSummaryOne s k v) =
      some (mergeMM (List.lookup k s) v) := by
  unfold updateSummaryOne
  by_cases hany : s.any (fun e => e.1 == k) = true
  · rw [if_pos hany, lookup_map_mm]
    obtain ⟨q, hq⟩ := any_key_true_lookup_some k s hany
    rw [hq]
    rfl
  · rw [if_neg hany]
    have hall := any_key_false_all_ne k s (Bool.eq_false_iff.mpr hany)
    rw [lookup_append_kv k (v, v) s hall, lookup_eq_none_of_all_ne k s hall]
    rfl

theorem USO_lookup_other (s : List (String × (Int × Int))) (k k' : String)
    (v : Int) (hne : k' ≠ k) :
    List.lookup k' (updateSummaryOne s k v) = List.lookup k' s := by
  unfold updateSummaryOne
  split
  · exact lookup_map_mm_other k k' v hne s
  · exact lookup_append_other k k' (v, v) hne s

theorem US_lookup_not_mem (th : THdr) (k : String) :
    ∀ ks : List String, k ∉ ks → ∀ s,
      List.lookup k (updateSummary s th ks) = List.lookup k s := by
  intro ks
  induction ks with
  | nil => intro _ s; rfl
  | cons k' t ih =>
    intro hk s
    have h1 : k ∉ t := fun h => hk (List.mem_cons_of_mem _ h)
    have h2 : k ≠ k' := fun h => hk (h ▸ List.mem_cons_self _ _)
    show List.lookup k (updateSummary (updateSummaryOne s k' (th k')) th t) =
      List.lookup k s
    rw [ih h1, USO_lookup_other s k' k (th k') h2]

theorem US_lookup_mem (th : THdr) (k : String) :
    ∀ ks : List String, k ∈ ks → ∀ s,
      List.lookup k (updateSummary s th ks) =
        some (mergeMM (List.lookup k s) (th k)) := by
  intro ks
  induction ks with
  | nil => intro h; cases h
  | cons k' t ih =>
    intro hk s
    show List.lookup k (updateSummary (updateSummaryOne s k' (th k')) th t) =
      some (mergeMM (List.lookup k s) (th k))
    by_cases hkt : k ∈ t
    · rw [ih hkt]
      by_cases hk' : k' = k
      · subst hk'
        rw [USO_lookup_self, mergeMM_merge_same]
      · rw [USO_lookup_other s k' k (th k') (Ne.symm hk')]
    · have hk'' : k = k' := by
        rcases List.mem_cons.mp hk with h | h
        · exact h
        · exact absurd h hkt
      subst hk''
      rw [US_lookup_not_mem th k t hkt, USO_lookup_self]

theorem mem_appendSeg_shape (recs : List ShotRecord) (p : Int × Int × Int)
    (seg : Nat × Nat) :
    ∀ r' ∈ appendSeg recs p seg, ∃ r ∈ recs,
      r'.shot = r.shot ∧ r'.summary = r.summary := by
  intro r' hr'
  unfold appendSeg at hr'
  obtain ⟨r, hr, hfr⟩ := List.mem_map.mp hr'
  refine ⟨r, hr, ?_⟩
  by_cases h : r.shot = p <;> simp [← hfr, h]

theorem mem_insertRecord_cases (path : String) (ns dt : Int)
    (recs : List ShotRecord) (src : Int × Int × Int) :
    ∀ r ∈ insertRecord path ns dt recs src,
      r ∈ recs ∨ (r = ⟨path, src, [], [], ns, dt⟩ ∧ src ∉ shots recs) := by
  intro r hr
  unfold insertRecord at hr
  split at hr
  · exact Or.inl hr
  · rename_i hany
    rcases List.mem_append.mp hr with h | h
    · exact Or.inl h
    · refine Or.inr ⟨List.mem_singleton.mp h, ?_⟩
      intro hmem
      apply hany
      rw [List.any_eq_true]
      obtain ⟨r', hr', hshot⟩ := List.mem_map.mp hmem
      exact ⟨r', hr', decide_eq_true hshot⟩

theorem scanStep_summary_inv (path : String) (ns dt : Int) (dk : String)
    (extras : List String) (k : String) (hk : k ∈ extras)
    (st : ScanState) (consumed : List (Nat × THdr)) (it : Nat × THdr)
    (hA : ∀ j ∈ consumed, keyOf dk j.2 ∈ shots st.records)
    (hB : ∀ r ∈ st.records, List.lookup k r.summary =
      specMM (streamVals dk consumed r.shot k)) :
    (∀ j ∈ consumed ++ [it], keyOf dk j.2 ∈
      shots (scanStep path ns dt dk extras st it).records) ∧
    (∀ r ∈ (scanStep path ns dt dk extras st it).records,
      List.lookup k r.summary =
        specMM (streamVals dk (consumed ++ [it]) r.shot k)) := by
  have hshots1 : shots (updateSummaryAt
      (insertRecord path ns dt st.records (keyOf dk it.2)) (keyOf dk it.2)
      it.2 extras) =
      shots (insertRecord path ns dt st.records (keyOf dk it.2)) :=
    shots_updateSummaryAt _ _ _ _
  have hsrc1 : keyOf dk it.2 ∈ shots (updateSummaryAt
      (insertRecord path ns dt st.records (keyOf dk it.2)) (keyOf dk it.2)
      it.2 extras) := by
    rw [hshots1]; exact mem_shots_insertRecord _ _ _ _ _
  have hsub1 : ∀ x ∈ shots st.records, x ∈ shots (updateSummaryAt
      (insertRecord path ns dt st.records (keyOf dk it.2)) (keyOf dk it.2)
      it.2 extras) := by
    intro x hx
    rw [hshots1]
    exact mem_shots_insertRecord_of_mem _ _ _ _ _ _ hx
  have hB1 : ∀ r ∈ updateSummaryAt
      (insertRecord path ns dt st.records (keyOf dk it.2)) (keyOf dk it.2)
      it.2 extras,
      List.lookup k r.summary =
        specMM (streamVals dk (consumed ++ [it]) r.shot k) := by
    intro r' hr'
    unfold updateSummaryAt at hr'
    obtain ⟨r, hrmem, hgr⟩ := List.mem_map.mp hr'
    by_cases hsh : r.shot = keyOf dk it.2
    · rw [if_pos hsh] at hgr
      have hshot' : r'.shot = keyOf dk it.2 := by rw [← hgr]; exact hsh
      have hsum' : r'.summary = updateSummary r.summary it.2 extras := by
        rw [← hgr]
      rw [hsum', US_lookup_mem it.2 k extras hk, hshot',
        streamVals_append_one, if_pos rfl]
      rcases mem_insertRecord_cases path ns dt st.records (keyOf dk it.2)
          r hrmem with hold | ⟨hfresh, hnomem⟩
      · rw [hB r hold, hsh, specMM_append_one]
      · have hsumnil : r.summary = [] := by rw [hfresh]
        have hvals : streamVals dk consumed (keyOf dk it.2) k = [] := by
          apply streamVals_eq_nil
          intro j hj heq
          exact hnomem (heq ▸ hA j hj)
        rw [hsumnil, hvals, specMM_append_one]
        rfl
    · rw [if_neg hsh] at hgr
      rw [← hgr]
      have hrold : r ∈ st.records := by
        rcases mem_insertRecord_cases path ns dt st.records (keyOf dk it.2)
            r hrmem with hold | ⟨hfresh, _⟩
        · exact hold
        · exact absurd (by rw [hfresh]) hsh
      rw [hB r hrold, streamVals_append_one,
        if_neg (fun h => hsh h.symm), List.append_nil]
  have hrecords : (scanStep path ns dt dk extras st it).records =
      updateSummaryAt (insertRecord path ns dt st.records (keyOf dk it.2))
        (keyOf dk it.2) it.2 extras ∨
      ∃ p seg, (scanStep path ns dt dk extras st it).records =
        appendSeg (updateSummaryAt
          (insertRecord path ns dt st.records (keyOf dk it.2))
          (keyOf dk it.2) it.2 extras) p seg := by
    cases hprev : st.previous with
    | none =>
      simp only [scanStep, hprev]
      exact Or.inl trivial
    | some p =>
      by_cases hsp : keyOf dk it.2 = p
      · simp only [scanStep, hprev, if_pos hsp]
        exact Or.inl trivial
      · simp only [scanStep, hprev, if_neg hsp]
        exact Or.inr ⟨p, (st.segStart, st.segCount), rfl⟩
  rcases hrecords with heq | ⟨p, seg, heq⟩
  · rw [heq]
    constructor
    · intro j hj
      rcases List.mem_append.mp hj with h | h
      · exact hsub1 _ (hA j h)
      · rw [List.mem_singleton.mp h]
        exact hsrc1
    · exact hB1
  · rw [heq]
    constructor
    · intro j hj
      rw [shots_appendSeg]
      rcases List.mem_append.mp hj with h | h
      · exact hsub1 _ (hA j h)
      · rw [List.mem_singleton.mp h]
        exact hsrc1
    · intro r' hr'
      obtain ⟨r, hrmem, hshot, hsum⟩ := mem_appendSeg_shape _ p seg r' hr'
      rw [hshot, hsum]
      exact hB1 r hrmem

theorem scanFold_summary_inv (path : String) (ns dt : Int) (dk : String)
    (extras : List String) (k : String) (hk : k ∈ extras) :
    ∀ (stream consumed : List (Nat × THdr)) (st : ScanState),
      (∀ j ∈ consumed, keyOf dk j.2 ∈ shots st.records) →
      (∀ r ∈ st.records, List.lookup k r.summary =
        specMM (streamVals dk consumed r.shot k)) →
      (∀ r ∈ (stream.foldl (scanStep path ns dt dk extras) st).records,
        List.lookup k r.summary =
          specMM (streamVals dk (consumed ++ stream) r.shot k)) := by
  intro stream
  induction stream with
  | nil =>
    intro consumed st _ hB
    simpa using hB
  | cons it t ih =>
    intro consumed st hA hB
    obtain ⟨hA', hB'⟩ := scanStep_summary_inv path ns dt dk extras k hk
      st consumed it hA hB
    have := ih (consumed ++ [it]) (scanStep path ns dt dk extras st it)
      hA' hB'
    simpa [List.append_assoc] using this

theorem scanFromStream_summary (path : String) (fh : FileHeaderM)
    (stream : List (Nat × THdr)) (dk : String) (extras : List String)
    (k : String) (hk : k ∈ extras) :
    ∀ r ∈ scanFromStream path fh stream dk extras,
      List.lookup k r.summary = specMM (streamVals dk stream r.shot k) := by
  intro r hr
  simp only [scanFromStream] at hr
  have hr2 : r ∈ closeScan (stream.foldl
      (scanStep path (bfhGet fh.bfh "ns") (bfhGet fh.bfh "dt") dk extras)
      initScanState) :=
    (List.mergeSort_perm _ (fun a b => shotLe a.shot b.shot)).mem_iff.mp hr
  have hinv := scanFold_summary_inv path (bfhGet fh.bfh "ns")
    (bfhGet fh.bfh "dt") dk extras k hk stream [] initScanState
    (by intro j hj; cases hj) (by intro r0 hr0; cases hr0)
  rw [List.nil_append] at hinv
  unfold closeScan at hr2
  revert hr2
  cases hcs : (stream.foldl (scanStep path (bfhGet fh.bfh "ns")
      (bfhGet fh.bfh "dt") dk extras) initScanState).previous with
  | none =>
    intro hr2
    exact hinv r hr2
  | some p =>
    intro hr2
    obtain ⟨r0, hr0, hshot, hsum⟩ := mem_appendSeg_shape _ p _ r hr2
    rw [hshot, hsum]
    exact hinv r0 hr0

/-- **C8.** For every scanned file, every requested extra field `k` and
every ShotRecord `r` of the result, the recorded summary entry for `k`
equals the true `(min, max)` of field `k` over exactly the traces assigned
to `r` — those of the decoded header stream whose source key is `r.shot` —
independent of how those traces are fragmented into segments (the
reference `specMM` never mentions segments). -/
theorem scan_summary_minmax (path : String) (h : Handle)
    (extras : List String) (chunk : Nat) (dk k : String)
    (hk : k ∈ extras) :
    ∀ r ∈ scanRecordsOf path h extras chunk dk,
      List.lookup k r.summary =
        specMM (streamVals dk (scanStreamOf h dk extras chunk) r.shot k) := by
  intro r hr
  unfold scanRecordsOf scanFile at hr
  cases hrd : read_fileheader h none with
  | none =>
    rw [hrd] at hr
    simp at hr
  | some pr =>
    obtain ⟨fh, f1⟩ := pr
    rw [hrd] at hr
    dsimp only at hr
    by_cases hns : 0 ≤ bfhGet fh.bfh "ns"
    · rw [if_pos hns] at hr
      simp only [Option.map_some', Option.getD_some] at hr
      exact scanFromStream_summary path fh (scanStreamOf h dk extras chunk)
        dk extras k hk r hr
    · rw [if_neg hns] at hr
      simp at hr

set_option maxRecDepth 100000 in
unseal List.merge List.mergeSort in
/-- Witness for C8: on the synthetic 3-trace file scanned with the extra
field `GroupX`, the `(1,1,0)` record's summary entry for `GroupX` equals
the reference min/max of `GroupX` over the stream traces with that key. -/
theorem scan_summary_minmax_witness :
    List.lookup "GroupX"
        ((⟨"f", (1, 1, 0), [(3600, 1), (4088, 1)], [("GroupX", (0, 0))],
          1, 0⟩ : ShotRecord)).summary =
      specMM (streamVals "SourceDepth"
        (scanStreamOf cHandle "SourceDepth" ["GroupX"] 1024)
        ((⟨"f", (1, 1, 0), [(3600, 1), (4088, 1)], [("GroupX", (0, 0))],
          1, 0⟩ : ShotRecord)).shot "GroupX") :=
  scan_summary_minmax "f" cHandle ["GroupX"] 1024 "SourceDepth" "GroupX"
    (List.mem_singleton.mpr rfl) _ (by decide)

end Pysegy
